import Mathlib

/-! A fixed-capacity ring-buffer queue with per-slot status tags.

Shallow embedding of `Lock-Free/Queue/implement1.cpp` (class `lock_free_queue<T>`).

* Machine integers: `_head`, `_tail`, `_size`, `_sizebit`, `_sizebitmask` and the local
  cursors are `int`/`int32_t` in the source.  They are embedded as `Nat`: every value the
  code stores in them is the result of `x & _sizebitmask` or a loop counter, and for a
  requested size `1 ≤ size ≤ 2^30` no intermediate result leaves `[0, 2^31)`.
* The slot status is an `int32_t` tag and is embedded as `Int`.
* `new struct node[_size]` leaves the payloads indeterminate; the constructor takes the
  indeterminate payloads as a parameter `garbage`.
* A slot access outside the array, a failed `assert` and a loop that does not finish
  within the given number of iterations are results of type `Fault`.
-/

namespace LockFree

/-! ## Data model -/

/-- Status tag `empty` (line 14). -/
def empty : Int := 0
/-- Status tag `writing` (line 15). -/
def writing : Int := 1
/-- Status tag `valid` (line 16). -/
def valid : Int := 2
/-- Status tag `reading` (line 17). -/
def reading : Int := 3

/-- One ring-buffer cell, `struct node` (lines 19-23). -/
structure node (T : Type) where
  status : Int
  value : T
deriving DecidableEq, Repr

/-- The data members of `lock_free_queue<T>` (lines 25-30). -/
structure lock_free_queue (T : Type) where
  _items : List (node T)
  _head : Nat
  _tail : Nat
  _size : Nat
  _sizebit : Nat
  _sizebitmask : Nat
deriving DecidableEq, Repr

/-- Ways in which a call can fail to return. -/
inductive Fault where
  | assert_failed
  | out_of_bounds
  | out_of_fuel
deriving DecidableEq, Repr

/-! ## Constructor -/

/-- Number of zero bits above the highest set bit among bits `k-1 .. 0` of `x`. -/
def clz_from : Nat → Nat → Nat
  | 0, _ => 0
  | k + 1, x => if x.testBit k then 0 else clz_from k x + 1

/-- The compiler builtin `__builtin_clz` on a 32-bit operand: the number of leading zero
bits, starting at bit 31.  (The builtin is undefined at 0.) -/
def builtin_clz (x : Nat) : Nat := clz_from 32 x

/-- The constructor `lock_free_queue(int size)` (lines 38-59).  `sizeof(size)` is 4. -/
def lock_free_queue.construct {T : Type} (garbage : Nat → T) (size : Nat) :
    lock_free_queue T :=
  let sizebit0 := (4 <<< 3) - builtin_clz size - 1
  let rounded : Bool := size &&& (size - 1) != 0
  let sizebit := if rounded then sizebit0 + 1 else sizebit0
  let size1 := if rounded then 1 <<< sizebit else size
  { _items := (List.range size1).map (fun i => { status := empty, value := garbage i })
    _head := 0
    _tail := 0
    _size := size1
    _sizebit := sizebit
    _sizebitmask := size1 - 1 }

/-! ## Sequential operations -/

/-- The member `get_index` (lines 32-35). -/
def lock_free_queue.get_index {T : Type} (q : lock_free_queue T) (x : Nat) : Nat :=
  x &&& q._sizebitmask

/-- The member `is_empty` (lines 66-69). -/
def lock_free_queue.is_empty {T : Type} (q : lock_free_queue T) : Bool :=
  q._head == q._tail

/-- The member `is_full` (lines 71-74). -/
def lock_free_queue.is_full {T : Type} (q : lock_free_queue T) : Bool :=
  q._head == q.get_index (q._tail + 1)

/-- The call `_items[i].status.compare_exchange_strong(expected, desired)`.  The source
resets the variable holding `expected` before every call, so the value written back to it
on failure is never read. -/
def lock_free_queue.status_cas {T : Type} (q : lock_free_queue T) (i : Nat)
    (expected desired : Int) : Except Fault (Bool × lock_free_queue T) :=
  match q._items[i]? with
  | none => .error .out_of_bounds
  | some nd =>
    if nd.status = expected then
      .ok (true, { q with _items := q._items.set i { nd with status := desired } })
    else
      .ok (false, q)

/-- The assignment `_items[i].value = element` (line 104). -/
def lock_free_queue.store_value {T : Type} (q : lock_free_queue T) (i : Nat) (element : T) :
    Except Fault (lock_free_queue T) :=
  match q._items[i]? with
  | none => .error .out_of_bounds
  | some nd => .ok { q with _items := q._items.set i { nd with value := element } }

/-- The read `_items[i].value` (line 140). -/
def lock_free_queue.load_value {T : Type} (q : lock_free_queue T) (i : Nat) :
    Except Fault T :=
  match q._items[i]? with
  | none => .error .out_of_bounds
  | some nd => .ok nd.value

/-- The call `_tail.compare_exchange_strong(expected, desired)` (line 107). -/
def lock_free_queue.tail_cas {T : Type} (q : lock_free_queue T) (expected desired : Nat) :
    Bool × lock_free_queue T :=
  if q._tail = expected then (true, { q with _tail := desired }) else (false, q)

/-- The call `_head.compare_exchange_strong(expected, desired)` (line 143). -/
def lock_free_queue.head_cas {T : Type} (q : lock_free_queue T) (expected desired : Nat) :
    Bool × lock_free_queue T :=
  if q._head = expected then (true, { q with _head := desired }) else (false, q)

/-- The member `enqueue` (lines 76-109) run by one thread with no other thread active.
`fuel` bounds the number of times the body of the inner `do ... while` loop is entered;
with `fuel = 1` the call has to finish without retrying.  The unused parameter `start`
is dropped. -/
def lock_free_queue.enqueue {T : Type} (fuel : Nat) (q : lock_free_queue T) (element : T) :
    Except Fault (Bool × lock_free_queue T) :=
  match fuel with
  | 0 => .error .out_of_fuel
  | fuel + 1 =>
    let tail := q._tail
    if q.is_full then .ok (false, q)
    else
      match q.status_cas tail empty writing with
      | .error e => .error e
      | .ok (false, q1) => q1.enqueue fuel element
      | .ok (true, q1) =>
        if tail = q1._tail then
          match q1.store_value tail element with
          | .error e => .error e
          | .ok q2 =>
            match q2.status_cas tail writing valid with
            | .error e => .error e
            | .ok (false, _) => .error .assert_failed
            | .ok (true, q3) =>
              match q3.tail_cas tail (q3.get_index (tail + 1)) with
              | (false, _) => .error .assert_failed
              | (true, q4) => .ok (true, q4)
        else
          match q1.status_cas tail writing empty with
          | .error e => .error e
          | .ok (false, _) => .error .assert_failed
          | .ok (true, q2) => q2.enqueue fuel element

/-- The member `dequeue` (lines 111-145) run by one thread with no other thread active.
The reference parameter `element` is an input (the caller's variable) and an output.
`fuel` is as for `enqueue`. -/
def lock_free_queue.dequeue {T : Type} (fuel : Nat) (q : lock_free_queue T) (element : T) :
    Except Fault (Bool × T × lock_free_queue T) :=
  match fuel with
  | 0 => .error .out_of_fuel
  | fuel + 1 =>
    let head := q._head
    if q.is_empty then .ok (false, element, q)
    else
      match q.status_cas head valid reading with
      | .error e => .error e
      | .ok (false, q1) => q1.dequeue fuel element
      | .ok (true, q1) =>
        if head = q1._head then
          match q1.load_value head with
          | .error e => .error e
          | .ok element1 =>
            match q1.status_cas head reading empty with
            | .error e => .error e
            | .ok (false, _) => .error .assert_failed
            | .ok (true, q2) =>
              match q2.head_cas head (q2.get_index (head + 1)) with
              | (false, _) => .error .assert_failed
              | (true, q3) => .ok (true, element1, q3)
        else
          match q1.status_cas head reading valid with
          | .error e => .error e
          | .ok (false, _) => .error .assert_failed
          | .ok (true, q2) => q2.dequeue fuel element

/-! ## Concurrent execution: interleaving of atomic steps

Every atomic load, every compare-exchange and every access to a payload is one step of
the thread that performs it; steps of different threads interleave arbitrarily.  All
atomics in the source use the default (sequentially consistent) ordering. -/

/-- Program points of a thread inside `enqueue` / `dequeue`: the next shared-memory
access the thread will perform. -/
inductive PC where
  /-- Not inside a call. -/
  | idle
  /-- Line 85, `tail = _tail.load()`. -/
  | enq_load_tail
  /-- Line 87, `is_full()`, neither operand of `==` loaded yet. -/
  | enq_full
  /-- Line 73 with `_head.load()` done, `_tail.load()` pending. -/
  | enq_full_head (h : Nat)
  /-- Line 73 with `_tail.load()` done, `_head.load()` pending. -/
  | enq_full_tail (t : Nat)
  /-- Line 93, compare-exchange `empty -> writing` on `_items[tail].status`. -/
  | enq_claim
  /-- Line 95, `tail == _tail.load()`. -/
  | enq_check
  /-- Line 101, asserted compare-exchange `writing -> empty`. -/
  | enq_abort
  /-- Line 104, `_items[tail].value = element`. -/
  | enq_store
  /-- Line 106, asserted compare-exchange `writing -> valid`. -/
  | enq_commit
  /-- Line 107, asserted compare-exchange on `_tail`. -/
  | enq_advance
  /-- Line 121, `head = _head.load()`. -/
  | deq_load_head
  /-- Line 123, `is_empty()`, neither operand of `==` loaded yet. -/
  | deq_empty
  /-- Line 68 with `_head.load()` done, `_tail.load()` pending. -/
  | deq_empty_head (h : Nat)
  /-- Line 68 with `_tail.load()` done, `_head.load()` pending. -/
  | deq_empty_tail (t : Nat)
  /-- Line 129, compare-exchange `valid -> reading` on `_items[head].status`. -/
  | deq_claim
  /-- Line 131, `head == _head.load()`. -/
  | deq_check
  /-- Line 137, asserted compare-exchange `reading -> valid`. -/
  | deq_abort
  /-- Line 140, `element = _items[head].value`. -/
  | deq_fetch
  /-- Line 142, asserted compare-exchange `reading -> empty`. -/
  | deq_commit
  /-- Line 143, asserted compare-exchange on `_head`. -/
  | deq_advance
deriving DecidableEq, Repr

/-- The private state of a thread: its program point, the locals `tail` (of `enqueue`) and
`head` (of `dequeue`), and `element` (the argument of `enqueue`, or the caller's variable
bound to the reference parameter of `dequeue`). -/
structure Local (T : Type) where
  pc : PC
  tail : Nat
  head : Nat
  element : T
deriving DecidableEq, Repr

/-- What the scheduler lets a thread do next. -/
inductive Action (T : Type) where
  /-- An idle thread calls `enqueue(element)`. -/
  | call_enqueue (element : T)
  /-- An idle thread calls `dequeue(x)` on its variable. -/
  | call_dequeue
  /-- The thread performs its next access.  In `is_full()` / `is_empty()` with no operand
  loaded yet this loads the left operand (`_head`) first. -/
  | step
  /-- In `is_full()` / `is_empty()` with no operand loaded yet: load the right operand
  (`_tail`) first.  The order of evaluation of the operands of `==` is unspecified. -/
  | step_right
deriving DecidableEq, Repr

/-- What a step makes observable to the caller. -/
inductive Event (T : Type) where
  | silent
  /-- The call `enqueue(v)` returned true. -/
  | enqueue_true (v : T)
  /-- The call of `enqueue` returned false. -/
  | enqueue_false
  /-- The call of `dequeue` returned true with `v` in the output variable. -/
  | dequeue_true (v : T)
  /-- The call of `dequeue` returned false. -/
  | dequeue_false
  /-- The process stopped: a failed `assert`, or an access outside the slot array. -/
  | fault (f : Fault)
deriving DecidableEq, Repr

/-- One step of one thread on the shared queue `q`.  `none`: the action is not enabled at
the thread's program point. -/
def thread_step {T : Type} (q : lock_free_queue T) (l : Local T) (a : Action T) :
    Option (lock_free_queue T × Local T × Event T) :=
  match l.pc, a with
  | .idle, .call_enqueue v => some (q, { l with pc := .enq_load_tail, element := v }, .silent)
  | .idle, .call_dequeue => some (q, { l with pc := .deq_load_head }, .silent)
  -- enqueue
  | .enq_load_tail, .step => some (q, { l with pc := .enq_full, tail := q._tail }, .silent)
  | .enq_full, .step => some (q, { l with pc := .enq_full_head q._head }, .silent)
  | .enq_full, .step_right => some (q, { l with pc := .enq_full_tail q._tail }, .silent)
  | .enq_full_head h, .step =>
    if h == q.get_index (q._tail + 1) then some (q, { l with pc := .idle }, .enqueue_false)
    else some (q, { l with pc := .enq_claim }, .silent)
  | .enq_full_tail t, .step =>
    if q._head == q.get_index (t + 1) then some (q, { l with pc := .idle }, .enqueue_false)
    else some (q, { l with pc := .enq_claim }, .silent)
  | .enq_claim, .step =>
    match q.status_cas l.tail empty writing with
    | .error e => some (q, l, .fault e)
    | .ok (false, q1) => some (q1, { l with pc := .enq_load_tail }, .silent)
    | .ok (true, q1) => some (q1, { l with pc := .enq_check }, .silent)
  | .enq_check, .step =>
    if l.tail = q._tail then some (q, { l with pc := .enq_store }, .silent)
    else some (q, { l with pc := .enq_abort }, .silent)
  | .enq_abort, .step =>
    match q.status_cas l.tail writing empty with
    | .error e => some (q, l, .fault e)
    | .ok (false, _) => some (q, l, .fault .assert_failed)
    | .ok (true, q1) => some (q1, { l with pc := .enq_load_tail }, .silent)
  | .enq_store, .step =>
    match q.store_value l.tail l.element with
    | .error e => some (q, l, .fault e)
    | .ok q1 => some (q1, { l with pc := .enq_commit }, .silent)
  | .enq_commit, .step =>
    match q.status_cas l.tail writing valid with
    | .error e => some (q, l, .fault e)
    | .ok (false, _) => some (q, l, .fault .assert_failed)
    | .ok (true, q1) => some (q1, { l with pc := .enq_advance }, .silent)
  | .enq_advance, .step =>
    match q.tail_cas l.tail (q.get_index (l.tail + 1)) with
    | (false, _) => some (q, l, .fault .assert_failed)
    | (true, q1) => some (q1, { l with pc := .idle }, .enqueue_true l.element)
  -- dequeue
  | .deq_load_head, .step => some (q, { l with pc := .deq_empty, head := q._head }, .silent)
  | .deq_empty, .step => some (q, { l with pc := .deq_empty_head q._head }, .silent)
  | .deq_empty, .step_right => some (q, { l with pc := .deq_empty_tail q._tail }, .silent)
  | .deq_empty_head h, .step =>
    if h == q._tail then some (q, { l with pc := .idle }, .dequeue_false)
    else some (q, { l with pc := .deq_claim }, .silent)
  | .deq_empty_tail t, .step =>
    if q._head == t then some (q, { l with pc := .idle }, .dequeue_false)
    else some (q, { l with pc := .deq_claim }, .silent)
  | .deq_claim, .step =>
    match q.status_cas l.head valid reading with
    | .error e => some (q, l, .fault e)
    | .ok (false, q1) => some (q1, { l with pc := .deq_load_head }, .silent)
    | .ok (true, q1) => some (q1, { l with pc := .deq_check }, .silent)
  | .deq_check, .step =>
    if l.head = q._head then some (q, { l with pc := .deq_fetch }, .silent)
    else some (q, { l with pc := .deq_abort }, .silent)
  | .deq_abort, .step =>
    match q.status_cas l.head reading valid with
    | .error e => some (q, l, .fault e)
    | .ok (false, _) => some (q, l, .fault .assert_failed)
    | .ok (true, q1) => some (q1, { l with pc := .deq_load_head }, .silent)
  | .deq_fetch, .step =>
    match q.load_value l.head with
    | .error e => some (q, l, .fault e)
    | .ok v => some (q, { l with pc := .deq_commit, element := v }, .silent)
  | .deq_commit, .step =>
    match q.status_cas l.head reading empty with
    | .error e => some (q, l, .fault e)
    | .ok (false, _) => some (q, l, .fault .assert_failed)
    | .ok (true, q1) => some (q1, { l with pc := .deq_advance }, .silent)
  | .deq_advance, .step =>
    match q.head_cas l.head (q.get_index (l.head + 1)) with
    | (false, _) => some (q, l, .fault .assert_failed)
    | (true, q1) => some (q1, { l with pc := .idle }, .dequeue_true l.element)
  | _, _ => none

/-- The whole process: the shared queue, the threads, and a record of what the calls have
returned so far (`enqueued`: arguments of the `enqueue` calls that returned true;
`dequeued`: values delivered by the `dequeue` calls that returned true; `stopped`: the
fault that ended the process, if any). -/
structure System (T : Type) where
  queue : lock_free_queue T
  threads : List (Local T)
  enqueued : List T
  dequeued : List T
  stopped : Option Fault
deriving DecidableEq, Repr

/-- A process of `n` idle threads around the queue `q`; `x` is the initial content of each
thread's variables. -/
def System.start {T : Type} (q : lock_free_queue T) (n : Nat) (x : T) : System T :=
  { queue := q
    threads := List.replicate n { pc := .idle, tail := 0, head := 0, element := x }
    enqueued := []
    dequeued := []
    stopped := none }

/-- Record the outcome of a step. -/
def System.record {T : Type} (s : System T) : Event T → System T
  | .enqueue_true v => { s with enqueued := s.enqueued ++ [v] }
  | .dequeue_true v => { s with dequeued := s.dequeued ++ [v] }
  | .fault f => { s with stopped := some f }
  | _ => s

/-- Thread `i` takes one step.  `none`: no such thread, the action is not enabled, or the
process has stopped. -/
def System.step {T : Type} (s : System T) (i : Nat) (a : Action T) : Option (System T) :=
  if s.stopped.isSome then none
  else
    match s.threads[i]? with
    | none => none
    | some l =>
      match thread_step s.queue l a with
      | none => none
      | some (q1, l1, ev) =>
        some (System.record { s with queue := q1, threads := s.threads.set i l1 } ev)

/-- Run a schedule: a list of (thread, action) pairs, first pair first. -/
def System.exec {T : Type} : List (Nat × Action T) → System T → Option (System T)
  | [], s => some s
  | (i, a) :: rest, s =>
    match s.step i a with
    | none => none
    | some s1 => System.exec rest s1

/-- The slot a thread has claimed and not yet released, with the tag it holds it under:
`(tail, writing)` from the successful compare-exchange of line 93 up to the release of
line 101 or 106, `(head, reading)` from the successful compare-exchange of line 129 up to
the release of line 137 or 142. -/
def Local.holding {T : Type} (l : Local T) : Option (Nat × Int) :=
  match l.pc with
  | .enq_check | .enq_abort | .enq_store | .enq_commit => some (l.tail, writing)
  | .deq_check | .deq_abort | .deq_fetch | .deq_commit => some (l.head, reading)
  | _ => none

/-- The schedule in which thread `i` takes `k` consecutive steps. -/
def steps {T : Type} (i k : Nat) : List (Nat × Action T) :=
  List.replicate k (i, .step)

/-- The schedule in which thread `i` runs a whole uncontended `enqueue(v)`: the call and
its eight accesses. -/
def whole_enqueue {T : Type} (i : Nat) (v : T) : List (Nat × Action T) :=
  (i, .call_enqueue v) :: steps i 8

/-- The schedule in which thread `i` runs a whole uncontended `dequeue`: the call and its
eight accesses. -/
def whole_dequeue {T : Type} (i : Nat) : List (Nat × Action T) :=
  (i, .call_dequeue) :: steps i 8

/-- A schedule for a queue of requested size 2 with two producers (threads 0 and 1) and
one consumer (thread 2).  Thread 0 loads `tail = 0` and passes the `is_full()` test; thread
1 enqueues 10 and thread 2 dequeues it; thread 0 then wins the compare-exchange on slot 0;
thread 1 enqueues 30 into slot 1, which wraps `_tail` back to 0; thread 0 finds
`tail == _tail.load()` and completes its `enqueue(20)`. -/
def stranding_schedule : List (Nat × Action Int) :=
  (0, .call_enqueue 20) :: steps 0 3
    ++ whole_enqueue 1 10
    ++ whole_dequeue 2
    ++ steps 0 1
    ++ whole_enqueue 1 30
    ++ steps 0 4

/-- What is observed of a process state: the calls that returned true, whether the queue
reports empty, the fault if any, and the program point of every thread. -/
structure Observation (T : Type) where
  enqueued : List T
  dequeued : List T
  reports_empty : Bool
  stopped : Option Fault
  pcs : List PC
deriving DecidableEq, Repr

/-- The observation of a process state. -/
def System.observe {T : Type} (s : System T) : Observation T :=
  { enqueued := s.enqueued
    dequeued := s.dequeued
    reports_empty := s.queue.is_empty
    stopped := s.stopped
    pcs := s.threads.map (fun l => l.pc) }



/-! ## Single-threaded use: abstraction, reachability, specification -/

/-- The number of slots from `head` forward to `tail`, modulo the capacity. -/
def lock_free_queue.count {T : Type} (q : lock_free_queue T) : Nat :=
  (q._tail + q._size - q._head) % q._size

/-- The slot indices `head, head+1, ..., tail-1` (mod capacity). -/
def lock_free_queue.ring {T : Type} (q : lock_free_queue T) : List Nat :=
  (List.range q.count).map (fun k => (q._head + k) % q._size)

/-- The contents of the queue: the values of the slots at the indices of `ring`. -/
def lock_free_queue.contents {T : Type} (q : lock_free_queue T) : List T :=
  q.ring.filterMap (fun i => (q._items[i]?).map (fun nd => nd.value))

/-- The number of stored items: the number of slots whose status is `valid`. -/
def lock_free_queue.stored {T : Type} (q : lock_free_queue T) : Nat :=
  q._items.countP (fun nd => nd.status == valid)

/-- Slot `i` lies in the occupied arc of the ring, from `head` up to but excluding `tail`,
written without modular arithmetic. -/
def lock_free_queue.occupied {T : Type} (q : lock_free_queue T) (i : Nat) : Prop :=
  if q._head ≤ q._tail then q._head ≤ i ∧ i < q._tail else q._head ≤ i ∨ i < q._tail

/-- The representation invariant of single-threaded use. -/
structure WellFormed {T : Type} (q : lock_free_queue T) : Prop where
  size_pow : ∃ k, q._size = 2 ^ k ∧ q._sizebitmask = 2 ^ k - 1
  length_items : q._items.length = q._size
  head_lt : q._head < q._size
  tail_lt : q._tail < q._size
  status_valid : ∀ i nd, q._items[i]? = some nd → q.occupied i → nd.status = valid
  status_empty : ∀ i nd, q._items[i]? = some nd → ¬ q.occupied i → nd.status = empty
  stored_count : q.stored = q.count

/-- Single-threaded use: `History q ens des` holds when `q` is reached from a freshly
constructed queue (requested size between 1 and `2^30`) by a sequence of `enqueue` and
`dequeue` calls, each of which runs to completion and returns; `ens` lists the arguments
of the calls of `enqueue` that returned true and `des` the values delivered by the calls
of `dequeue` that returned true, both in call order. -/
inductive History {T : Type} : lock_free_queue T → List T → List T → Prop where
  | fresh (garbage : Nat → T) (size : Nat) (h1 : 1 ≤ size) (h2 : size ≤ 2 ^ 30) :
      History (lock_free_queue.construct garbage size) [] []
  | enqueue {q : lock_free_queue T} {ens des : List T} (fuel : Nat) (v : T) (b : Bool)
      (q1 : lock_free_queue T) (h : History q ens des)
      (hcall : q.enqueue fuel v = .ok (b, q1)) :
      History q1 (if b then ens ++ [v] else ens) des
  | dequeue {q : lock_free_queue T} {ens des : List T} (fuel : Nat) (x : T) (b : Bool)
      (y : T) (q1 : lock_free_queue T) (h : History q ens des)
      (hcall : q.dequeue fuel x = .ok (b, y, q1)) :
      History q1 ens (if b then des ++ [y] else des)

/-- The states of single-threaded use. -/
def Reachable {T : Type} (q : lock_free_queue T) : Prop :=
  ∃ ens des, History q ens des

/-- The bounded FIFO list of the specification: `enqueue(v)` appends `v` at the end. -/
def fifo_enqueue {T : Type} (l : List T) (v : T) : List T := l ++ [v]

/-- The bounded FIFO list of the specification: `dequeue` returns the first element and
removes it; there is nothing to return from the empty list. -/
def fifo_dequeue {T : Type} : List T → Option (T × List T)
  | [] => none
  | x :: rest => some (x, rest)

/-- The number `p` is the smallest power of two that is `≥ n`. -/
def smallest_pow2_ge (p n : Nat) : Prop :=
  (∃ k, p = 2 ^ k) ∧ n ≤ p ∧ ∀ j, n ≤ 2 ^ j → p ≤ 2 ^ j

/-- Call `enqueue` once for every element of the list, in order, and collect the return
values. -/
def lock_free_queue.enqueue_all {T : Type} (fuel : Nat) (q : lock_free_queue T) :
    List T → Except Fault (List Bool × lock_free_queue T)
  | [] => .ok ([], q)
  | v :: vs =>
    match q.enqueue fuel v with
    | .error e => .error e
    | .ok (b, q1) =>
      match q1.enqueue_all fuel vs with
      | .error e => .error e
      | .ok (bs, q2) => .ok (b :: bs, q2)

/-- The state a successful `enqueue(v)` leaves behind. -/
def enqueued_state {T : Type} (q : lock_free_queue T) (v : T) : lock_free_queue T :=
  { q with _items := q._items.set q._tail { status := valid, value := v }
           _tail := q.get_index (q._tail + 1) }

/-- The state a successful `dequeue` leaves behind, `nd` being the slot at `head`. -/
def dequeued_state {T : Type} (q : lock_free_queue T) (nd : node T) : lock_free_queue T :=
  { q with _items := q._items.set q._head { nd with status := empty }
           _head := q.get_index (q._head + 1) }

/-- The elements of a run of `enqueue` calls whose call returned true. -/
def accepted {T : Type} (l : List T) (bs : List Bool) : List T :=
  ((l.zip bs).filter (fun p => p.2)).map (fun p => p.1)

/-- The status tag of slot `j`, if the slot exists. -/
def lock_free_queue.slot_status {T : Type} (q : lock_free_queue T) (j : Nat) : Option Int :=
  (q._items[j]?).map (fun nd => nd.status)

/-- The ownership invariant of a process: a slot a thread holds carries the tag the thread
holds it under, and no slot is held by two threads. -/
def System.owned {T : Type} (s : System T) : Prop :=
  (∀ (a : Nat) (la : Local T) (j : Nat) (tag : Int), s.threads[a]? = some la →
    la.holding = some (j, tag) → s.queue.slot_status j = some tag) ∧
  (∀ (a b : Nat) (la lb : Local T) (j : Nat) (ta tb : Int), s.threads[a]? = some la →
    s.threads[b]? = some lb → la.holding = some (j, ta) → lb.holding = some (j, tb) → a = b)

/-- A schedule for the queue of the benchmark (requested size 8): thread 0 loads `tail = 0`
and passes the `is_full()` test; thread 1 enqueues 100 and thread 2 dequeues it; thread 0
wins the compare-exchange on slot 0; thread 1 enqueues seven more values into slots 1 to
7, which wraps `_tail` back to 0; thread 0 finds `tail == _tail.load()` and completes its
`enqueue(0)`. -/
def stranding_schedule_8 : List (Nat × Action Int) :=
  (0, .call_enqueue 0) :: steps 0 3
    ++ whole_enqueue 1 100
    ++ whole_dequeue 2
    ++ steps 0 1
    ++ whole_enqueue 1 101 ++ whole_enqueue 1 102 ++ whole_enqueue 1 103
    ++ whole_enqueue 1 104 ++ whole_enqueue 1 105 ++ whole_enqueue 1 106
    ++ whole_enqueue 1 107
    ++ steps 0 4

/-- A schedule in which thread 0 starts `enqueue(20)` and wins the compare-exchange on
slot 0, and thread 1 then starts `enqueue(21)` and loses it. -/
def contended_schedule : List (Nat × Action Int) :=
  (0, .call_enqueue 20) :: steps 0 4 ++ (1, .call_enqueue 21) :: steps 1 4

/-! ## The build without assertion checking -/

/-- The member `enqueue` (lines 76-109) as compiled with `NDEBUG`, run by one thread with
no other thread active.  With `NDEBUG` the macro `assert(e)` expands to `((void)0)` and `e`
is not evaluated, so the compare-exchanges of lines 101, 106 and 107 are not executed.
`fuel` is as for `enqueue`. -/
def lock_free_queue.enqueue_ndebug {T : Type} (fuel : Nat) (q : lock_free_queue T)
    (element : T) : Except Fault (Bool × lock_free_queue T) :=
  match fuel with
  | 0 => .error .out_of_fuel
  | fuel + 1 =>
    let tail := q._tail
    if q.is_full then .ok (false, q)
    else
      match q.status_cas tail empty writing with
      | .error e => .error e
      | .ok (false, q1) => q1.enqueue_ndebug fuel element
      | .ok (true, q1) =>
        if tail = q1._tail then
          match q1.store_value tail element with
          | .error e => .error e
          | .ok q2 => .ok (true, q2)
        else
          q1.enqueue_ndebug fuel element

/-- The member `dequeue` (lines 111-145) as compiled with `NDEBUG`: the compare-exchanges
of lines 137, 142 and 143 are not executed. -/
def lock_free_queue.dequeue_ndebug {T : Type} (fuel : Nat) (q : lock_free_queue T)
    (element : T) : Except Fault (Bool × T × lock_free_queue T) :=
  match fuel with
  | 0 => .error .out_of_fuel
  | fuel + 1 =>
    let head := q._head
    if q.is_empty then .ok (false, element, q)
    else
      match q.status_cas head valid reading with
      | .error e => .error e
      | .ok (false, q1) => q1.dequeue_ndebug fuel element
      | .ok (true, q1) =>
        if head = q1._head then
          match q1.load_value head with
          | .error e => .error e
          | .ok element1 => .ok (true, element1, q1)
        else
          q1.dequeue_ndebug fuel element

/-! ## Further schedules -/

/-- A schedule for a queue of requested size 2 in which a producer takes the abort branch
of line 101.  Thread 0 loads `tail = 0` and passes the `is_full()` test; thread 1 enqueues
10 and thread 2 dequeues it, which leaves slot 0 `empty` and `_tail = 1`; thread 0 wins the
compare-exchange on slot 0 and then evaluates `tail == _tail.load()`. -/
def producer_abort_schedule : List (Nat × Action Int) :=
  (0, .call_enqueue 20) :: steps 0 3
    ++ whole_enqueue 1 10
    ++ whole_dequeue 2
    ++ steps 0 2

/-- A schedule for a queue of requested size 2 in which a consumer takes the abort branch
of line 137.  Thread 3 loads `head = 0` and passes the `is_empty()` test while 10 is stored
in slot 0; meanwhile threads 0, 1 and 2 run `stranding_schedule`, after which `_head = 1`
and slot 0 is `valid` again; thread 3 wins the compare-exchange on slot 0 and then
evaluates `head == _head.load()`. -/
def consumer_abort_schedule : List (Nat × Action Int) :=
  (0, .call_enqueue 20) :: steps 0 3
    ++ whole_enqueue 1 10
    ++ (3, .call_dequeue) :: steps 3 3
    ++ whole_dequeue 2
    ++ steps 0 1
    ++ whole_enqueue 1 30
    ++ steps 0 4
    ++ steps 3 2

/-- A schedule for a queue of requested size 2 in which the assertion of line 107 fails.
Thread 1 enqueues 10; thread 0 calls `dequeue`, loads `head = 0` and passes the
`is_empty()` test; thread 1 dequeues 10, enqueues 11 and dequeues it, so that
`_head = _tail = 0` and both slots are `empty`; thread 3 calls `enqueue(40)`, loads
`tail = 0` and passes the `is_full()` test; thread 2 runs `enqueue(50)` up to and including
the commit `writing -> valid` of slot 0; thread 0 completes its `dequeue` (it delivers 50
and sets `_head = 1`); thread 3 wins the compare-exchange on slot 0 and finds
`tail == _tail.load()`; thread 2 advances `_tail` from 0 to 1; thread 3 stores 40, commits
and attempts `_tail.compare_exchange_strong(0, 1)`. -/
def assert_failure_schedule : List (Nat × Action Int) :=
  whole_enqueue 1 10
    ++ (0, .call_dequeue) :: steps 0 3
    ++ whole_dequeue 1
    ++ whole_enqueue 1 11
    ++ whole_dequeue 1
    ++ (3, .call_enqueue 40) :: steps 3 3
    ++ (2, .call_enqueue 50) :: steps 2 7
    ++ steps 0 5
    ++ steps 3 2
    ++ steps 2 1
    ++ steps 3 3

/-- The queue of the source's `main` (requested size 5) as `enqueue(7)` leaves it in the
build with `NDEBUG`: slot 0 holds 7 and is still `writing`, and `_tail` is still 0. -/
def main_queue_ndebug : lock_free_queue Int :=
  { _items := { status := writing, value := 7 } ::
      List.replicate 7 { status := empty, value := 0 }
    _head := 0
    _tail := 0
    _size := 8
    _sizebit := 3
    _sizebitmask := 7 }

/-! ## Bit-level facts used by the constructor -/

theorem testBit_top_iff {x k : Nat} (hx : x < 2 ^ (k + 1)) :
    x.testBit k = true ↔ 2 ^ k ≤ x := by
  constructor
  · intro h
    exact Nat.testBit_implies_ge h
  · intro h
    obtain ⟨y, rfl⟩ := Nat.exists_eq_add_of_le h
    have hy : y < 2 ^ k := by
      have : 2 ^ (k + 1) = 2 ^ k + 2 ^ k := by ring
      omega
    rw [Nat.testBit_two_pow_add_eq, Nat.testBit_lt_two_pow hy]
    rfl

theorem clz_from_spec (k : Nat) : ∀ x : Nat, 0 < x → x < 2 ^ k →
    clz_from k x < k ∧ 2 ^ (k - 1 - clz_from k x) ≤ x ∧ x < 2 ^ (k - clz_from k x) := by
  induction k with
  | zero => intro x h0 h1; simp at h1; omega
  | succ k ih =>
    intro x h0 h1
    unfold clz_from
    by_cases hb : x.testBit k = true
    · simp only [hb, if_true]
      refine ⟨by omega, ?_, ?_⟩
      · simpa using (testBit_top_iff h1).1 hb
      · simpa using h1
    · simp only [hb]
      have hlt : x < 2 ^ k := by
        by_contra hge
        exact hb ((testBit_top_iff h1).2 (by omega))
      obtain ⟨a, b, c⟩ := ih x h0 hlt
      refine ⟨by rw [if_neg (by simp)]; omega, ?_, ?_⟩
      · have : k + 1 - 1 - (clz_from k x + 1) = k - 1 - clz_from k x := by omega
        rw [if_neg (by simp), this]
        exact b
      · have : k + 1 - (clz_from k x + 1) = k - clz_from k x := by omega
        rw [if_neg (by simp), this]
        exact c

/-- The value `x & (x - 1)` is zero exactly when `x` is the power of two of its binade. -/
theorem land_pred_eq_zero_iff {n b : Nat} (h1 : 2 ^ b ≤ n) (h2 : n < 2 ^ (b + 1)) :
    n &&& (n - 1) = 0 ↔ n = 2 ^ b := by
  constructor
  · intro h
    by_contra hne
    have hgt : 2 ^ b ≤ n - 1 := by omega
    have t1 : n.testBit b = true := (testBit_top_iff h2).2 h1
    have t2 : (n - 1).testBit b = true := (testBit_top_iff (by omega)).2 hgt
    have : (n &&& (n - 1)).testBit b = true := by
      rw [Nat.testBit_and, t1, t2]; rfl
    rw [h] at this
    simp at this
  · rintro rfl
    rw [Nat.and_pow_two_sub_one_eq_mod]
    simp

/-- The floor of the binary logarithm as the constructor computes it. -/
theorem sizebit_spec {n : Nat} (h0 : 1 ≤ n) (h1 : n ≤ 2 ^ 30) :
    (4 <<< 3) - builtin_clz n - 1 ≤ 30 ∧
      2 ^ ((4 <<< 3) - builtin_clz n - 1) ≤ n ∧ n < 2 ^ ((4 <<< 3) - builtin_clz n - 1 + 1) := by
  have hlt : n < 2 ^ 32 := by
    have : (2:Nat) ^ 30 < 2 ^ 32 := by norm_num
    omega
  obtain ⟨a, b, c⟩ := clz_from_spec 32 n h0 hlt
  have e : (4 <<< 3 : Nat) = 32 := by decide
  unfold builtin_clz
  rw [e]
  have e1 : 32 - clz_from 32 n - 1 = 32 - 1 - clz_from 32 n := by omega
  have e2 : 32 - clz_from 32 n - 1 + 1 = 32 - clz_from 32 n := by omega
  rw [e2, e1]
  refine ⟨?_, b, c⟩
  by_contra hgt
  have h31 : 32 - 1 - clz_from 32 n = 31 := by omega
  rw [h31] at b
  have : (2:Nat) ^ 30 < 2 ^ 31 := by norm_num
  omega

/-- What the constructor builds, for every supported requested size: the capacity is a
power of two `2^k`, it is the least one that is `≥ n`, the mask is `2^k - 1`, all slots
are `empty`, and both cursors are 0. -/
theorem construct_spec {T : Type} (g : Nat → T) {n : Nat} (h0 : 1 ≤ n) (h1 : n ≤ 2 ^ 30) :
    ∃ k, k ≤ 30 ∧ (lock_free_queue.construct g n)._size = 2 ^ k ∧ n ≤ 2 ^ k ∧
      (∀ j, n ≤ 2 ^ j → k ≤ j) ∧
      (lock_free_queue.construct g n)._sizebitmask = 2 ^ k - 1 ∧
      (lock_free_queue.construct g n)._items =
        (List.range (2 ^ k)).map (fun i => { status := empty, value := g i }) ∧
      (lock_free_queue.construct g n)._head = 0 ∧
      (lock_free_queue.construct g n)._tail = 0 := by
  obtain ⟨a, b, c⟩ := sizebit_spec h0 h1
  generalize hsb : (4 <<< 3) - builtin_clz n - 1 = sb at a b c
  have hpow := land_pred_eq_zero_iff b c
  have hsb1 : 32 - builtin_clz n - 1 = sb := by
    have e : (4 <<< 3 : Nat) = 32 := by decide
    rw [← hsb, e]
  by_cases hp : n &&& (n - 1) = 0
  · have hn : n = 2 ^ sb := hpow.1 hp
    refine ⟨sb, a, ?_, ?_, ?_, ?_, ?_, rfl, rfl⟩
    · simp [lock_free_queue.construct, hp, hn]
    · omega
    · intro j hj
      by_contra hlt
      have : 2 ^ j < 2 ^ sb := Nat.pow_lt_pow_right (by norm_num) (by omega)
      omega
    · simp [lock_free_queue.construct, hp, hn]
    · simp [lock_free_queue.construct, hp, hn]
  · have hn : n ≠ 2 ^ sb := fun h => hp (hpow.2 h)
    have hle : sb + 1 ≤ 30 := by
      by_contra hgt
      have : sb = 30 := by omega
      subst this
      omega
    refine ⟨sb + 1, hle, ?_, ?_, ?_, ?_, ?_, rfl, rfl⟩
    · simp [lock_free_queue.construct, hp, hsb1, Nat.shiftLeft_eq]
    · omega
    · intro j hj
      by_contra hlt
      have : 2 ^ j ≤ 2 ^ sb := Nat.pow_le_pow_right (by norm_num) (by omega)
      omega
    · simp [lock_free_queue.construct, hp, hsb1, Nat.shiftLeft_eq]
    · simp [lock_free_queue.construct, hp, hsb1, Nat.shiftLeft_eq]

theorem get_index_eq_mod {T : Type} (q : lock_free_queue T) (k : Nat)
    (hm : q._sizebitmask = 2 ^ k - 1) (x : Nat) : q.get_index x = x % 2 ^ k := by
  unfold lock_free_queue.get_index
  rw [hm, Nat.and_pow_two_sub_one_eq_mod]

/-! ## The representation invariant and what the calls compute under it -/

theorem mod_wrap {a s : Nat} (h : a < 2 * s) : a % s = if a < s then a else a - s := by
  split
  · rename_i h1
    exact Nat.mod_eq_of_lt h1
  · rename_i h1
    rw [Nat.mod_eq_sub_mod (by omega)]
    exact Nat.mod_eq_of_lt (by omega)

theorem WellFormed.size_pos {T : Type} {q : lock_free_queue T} (w : WellFormed q) :
    0 < q._size := by
  have := w.head_lt
  omega

theorem WellFormed.get_index_mod {T : Type} {q : lock_free_queue T} (w : WellFormed q)
    (x : Nat) : q.get_index x = x % q._size := by
  obtain ⟨k, h1, h2⟩ := w.size_pow
  rw [get_index_eq_mod q k h2, h1]

theorem WellFormed.get_index_succ {T : Type} {q : lock_free_queue T} (w : WellFormed q)
    {x : Nat} (hx : x < q._size) :
    q.get_index (x + 1) = if x + 1 = q._size then 0 else x + 1 := by
  rw [w.get_index_mod, mod_wrap (by omega)]
  split_ifs <;> omega

theorem WellFormed.count_eq {T : Type} {q : lock_free_queue T} (w : WellFormed q) :
    q.count = if q._head ≤ q._tail then q._tail - q._head
      else q._tail + q._size - q._head := by
  have h1 := w.head_lt
  have h2 := w.tail_lt
  unfold lock_free_queue.count
  rw [mod_wrap (by omega)]
  split_ifs <;> omega

theorem WellFormed.count_lt {T : Type} {q : lock_free_queue T} (w : WellFormed q) :
    q.count < q._size := by
  unfold lock_free_queue.count
  exact Nat.mod_lt _ w.size_pos

theorem WellFormed.is_full_iff {T : Type} {q : lock_free_queue T} (w : WellFormed q) :
    q.is_full = true ↔ q.count = q._size - 1 := by
  have h1 := w.head_lt
  have h2 := w.tail_lt
  unfold lock_free_queue.is_full
  rw [w.get_index_succ h2, w.count_eq, beq_iff_eq]
  split_ifs <;> omega

theorem WellFormed.is_empty_iff {T : Type} {q : lock_free_queue T} (w : WellFormed q) :
    q.is_empty = true ↔ q.count = 0 := by
  have h1 := w.head_lt
  have h2 := w.tail_lt
  unfold lock_free_queue.is_empty
  rw [w.count_eq, beq_iff_eq]
  split_ifs <;> omega

theorem WellFormed.tail_free {T : Type} {q : lock_free_queue T} (_w : WellFormed q) :
    ¬ q.occupied q._tail := by
  unfold lock_free_queue.occupied
  split_ifs <;> omega

theorem WellFormed.head_occupied {T : Type} {q : lock_free_queue T} (_w : WellFormed q)
    (h : q.is_empty = false) : q.occupied q._head := by
  unfold lock_free_queue.is_empty at h
  have : q._head ≠ q._tail := by simpa using h
  unfold lock_free_queue.occupied
  split_ifs <;> omega

/-- Under the invariant `enqueue` returns from its first pass through the loop. -/
theorem WellFormed.enqueue_eq {T : Type} {q : lock_free_queue T} (w : WellFormed q)
    (fuel : Nat) (v : T) :
    q.enqueue (fuel + 1) v =
      .ok (if q.is_full then (false, q) else (true, enqueued_state q v)) := by
  have hlen : q._tail < q._items.length := by rw [w.length_items]; exact w.tail_lt
  obtain ⟨nd, hnd⟩ : ∃ nd, q._items[q._tail]? = some nd :=
    ⟨q._items[q._tail], List.getElem?_eq_getElem hlen⟩
  have hst : nd.status = empty := w.status_empty _ _ hnd w.tail_free
  unfold lock_free_queue.enqueue
  by_cases hf : q.is_full = true
  · simp [hf]
  · simp only [hf, Bool.false_eq_true, if_false]
    simp [lock_free_queue.status_cas, lock_free_queue.store_value, lock_free_queue.tail_cas,
      hnd, hst, hlen, enqueued_state, lock_free_queue.get_index, writing, valid, empty]

/-- Under the invariant `dequeue` returns from its first pass through the loop. -/
theorem WellFormed.dequeue_eq {T : Type} {q : lock_free_queue T} (w : WellFormed q)
    (fuel : Nat) (x : T) (nd : node T) (hnd : q._items[q._head]? = some nd) :
    q.dequeue (fuel + 1) x =
      .ok (if q.is_empty then (false, x, q) else (true, nd.value, dequeued_state q nd)) := by
  have hlen : q._head < q._items.length := by rw [w.length_items]; exact w.head_lt
  unfold lock_free_queue.dequeue
  by_cases hf : q.is_empty = true
  · simp [hf]
  · have hf1 : q.is_empty = false := by simpa using hf
    have hst : nd.status = valid := w.status_valid _ _ hnd (w.head_occupied hf1)
    simp only [hf, Bool.false_eq_true, if_false]
    simp [lock_free_queue.status_cas, lock_free_queue.load_value, lock_free_queue.head_cas,
      hnd, hst, hlen, dequeued_state, lock_free_queue.get_index, reading, valid, empty]

theorem WellFormed.head_slot {T : Type} {q : lock_free_queue T} (w : WellFormed q) :
    ∃ nd, q._items[q._head]? = some nd := by
  have hlen : q._head < q._items.length := by rw [w.length_items]; exact w.head_lt
  exact ⟨q._items[q._head], List.getElem?_eq_getElem hlen⟩

theorem count_eq_of_lt {T : Type} (q : lock_free_queue T) (h1 : q._head < q._size)
    (h2 : q._tail < q._size) :
    q.count = if q._head ≤ q._tail then q._tail - q._head
      else q._tail + q._size - q._head := by
  unfold lock_free_queue.count
  rw [mod_wrap (by omega)]
  split_ifs <;> omega

theorem lt_length_of_getElem? {α : Type} {l : List α} {i : Nat} {a : α}
    (h : l[i]? = some a) : i < l.length := by
  obtain ⟨h1, _⟩ := List.getElem?_eq_some.1 h
  exact h1

theorem enqueued_state_tail {T : Type} {q : lock_free_queue T} (w : WellFormed q) (v : T) :
    ∃ t, (enqueued_state q v)._tail = t ∧
      ((q._tail + 1 = q._size ∧ t = 0) ∨ (q._tail + 1 ≠ q._size ∧ t = q._tail + 1)) := by
  refine ⟨_, w.get_index_succ w.tail_lt, ?_⟩
  split_ifs <;> omega

theorem dequeued_state_head {T : Type} {q : lock_free_queue T} (w : WellFormed q)
    (nd : node T) :
    ∃ h, (dequeued_state q nd)._head = h ∧
      ((q._head + 1 = q._size ∧ h = 0) ∨ (q._head + 1 ≠ q._size ∧ h = q._head + 1)) := by
  refine ⟨_, w.get_index_succ w.head_lt, ?_⟩
  split_ifs <;> omega

theorem WellFormed.not_full {T : Type} {q : lock_free_queue T} (_w : WellFormed q)
    (hf : q.is_full = false) (v : T) : q._head ≠ (enqueued_state q v)._tail := by
  unfold lock_free_queue.is_full at hf
  have : q._head ≠ q.get_index (q._tail + 1) := by simpa using hf
  exact this

/-- A successful `enqueue` preserves the invariant. -/
theorem WellFormed.enqueued {T : Type} {q : lock_free_queue T} (w : WellFormed q)
    (hf : q.is_full = false) (v : T) : WellFormed (enqueued_state q v) := by
  have h1 := w.head_lt
  have h2 := w.tail_lt
  obtain ⟨t1, hT, ht1⟩ := enqueued_state_tail w v
  have hH : (enqueued_state q v)._head = q._head := rfl
  have hS : (enqueued_state q v)._size = q._size := rfl
  have hI : (enqueued_state q v)._items = q._items.set q._tail { status := valid, value := v } :=
    rfl
  have hnf := w.not_full hf v
  rw [hT] at hnf
  have hlen := w.length_items
  refine ⟨w.size_pow, ?_, ?_, ?_, ?_, ?_, ?_⟩
  · rw [hI, List.length_set]; exact hlen
  · rw [hH, hS]; exact h1
  · rw [hT, hS]; omega
  · intro i nd hi hocc
    rw [hI, List.getElem?_set] at hi
    by_cases hit : q._tail = i
    · rw [if_pos hit, if_pos (by omega)] at hi
      cases hi
      rfl
    · rw [if_neg hit] at hi
      have hil := lt_length_of_getElem? hi
      apply w.status_valid i nd hi
      unfold lock_free_queue.occupied at hocc ⊢
      rw [hT, hH] at hocc
      split_ifs at hocc ⊢ <;> omega
  · intro i nd hi hocc
    rw [hI, List.getElem?_set] at hi
    by_cases hit : q._tail = i
    · exfalso
      apply hocc
      unfold lock_free_queue.occupied
      rw [hT, hH]
      split_ifs <;> omega
    · rw [if_neg hit] at hi
      have hil := lt_length_of_getElem? hi
      apply w.status_empty i nd hi
      intro h
      apply hocc
      unfold lock_free_queue.occupied at h ⊢
      rw [hT, hH]
      split_ifs at h ⊢ <;> omega
  · have hc : (enqueued_state q v).count = q.count + 1 := by
      rw [count_eq_of_lt (enqueued_state q v) (by rw [hH, hS]; exact h1)
        (by rw [hT, hS]; omega), w.count_eq, hT, hH, hS]
      split_ifs <;> omega
    have hl : q._tail < q._items.length := by omega
    have hold : q._items[q._tail].status = empty :=
      w.status_empty _ _ (List.getElem?_eq_getElem hl) w.tail_free
    rw [hc, ← w.stored_count]
    unfold lock_free_queue.stored
    rw [hI, List.countP_set _ _ _ _ hl]
    simp [hold, empty, valid]

theorem WellFormed.not_empty {T : Type} {q : lock_free_queue T} (_w : WellFormed q)
    (hf : q.is_empty = false) : q._head ≠ q._tail := by
  unfold lock_free_queue.is_empty at hf
  simpa using hf

/-- A successful `dequeue` preserves the invariant. -/
theorem WellFormed.dequeued {T : Type} {q : lock_free_queue T} (w : WellFormed q)
    (hf : q.is_empty = false) (nd : node T) (hnd : q._items[q._head]? = some nd) :
    WellFormed (dequeued_state q nd) := by
  have h3 := w.head_lt
  have h2 := w.tail_lt
  obtain ⟨h1, hH, hh1⟩ := dequeued_state_head w nd
  have hT : (dequeued_state q nd)._tail = q._tail := rfl
  have hS : (dequeued_state q nd)._size = q._size := rfl
  have hI : (dequeued_state q nd)._items = q._items.set q._head { nd with status := empty } :=
    rfl
  have hne := w.not_empty hf
  have hlen := w.length_items
  refine ⟨w.size_pow, ?_, ?_, ?_, ?_, ?_, ?_⟩
  · rw [hI, List.length_set]; exact hlen
  · rw [hH, hS]; omega
  · rw [hT, hS]; exact h2
  · intro i nd1 hi hocc
    rw [hI, List.getElem?_set] at hi
    by_cases hit : q._head = i
    · exfalso
      unfold lock_free_queue.occupied at hocc
      rw [hT, hH] at hocc
      split_ifs at hocc <;> omega
    · rw [if_neg hit] at hi
      have hil := lt_length_of_getElem? hi
      apply w.status_valid i nd1 hi
      unfold lock_free_queue.occupied at hocc ⊢
      rw [hT, hH] at hocc
      split_ifs at hocc ⊢ <;> omega
  · intro i nd1 hi hocc
    rw [hI, List.getElem?_set] at hi
    by_cases hit : q._head = i
    · rw [if_pos hit, if_pos (by omega)] at hi
      cases hi
      rfl
    · rw [if_neg hit] at hi
      have hil := lt_length_of_getElem? hi
      apply w.status_empty i nd1 hi
      intro h
      apply hocc
      unfold lock_free_queue.occupied at h ⊢
      rw [hT, hH]
      split_ifs at h ⊢ <;> omega
  · have hc : (dequeued_state q nd).count + 1 = q.count := by
      rw [count_eq_of_lt (dequeued_state q nd) (by rw [hH, hS]; omega)
        (by rw [hT, hS]; exact h2), w.count_eq, hT, hH, hS]
      split_ifs <;> omega
    have hl : q._head < q._items.length := by omega
    have hnd1 : q._items[q._head] = nd := by
      have := List.getElem?_eq_getElem hl
      rw [hnd] at this
      exact (Option.some.inj this).symm
    have hold : nd.status = valid := w.status_valid _ _ hnd (w.head_occupied hf)
    have hle := List.boole_getElem_le_countP (fun nd : node T => nd.status == valid) q._items
      q._head hl
    have hs : (dequeued_state q nd).stored + 1 = q.stored := by
      unfold lock_free_queue.stored
      rw [hI, List.countP_set _ _ _ _ hl]
      rw [hnd1] at hle ⊢
      simp only [hold, beq_self_eq_true, if_true] at hle ⊢
      have he : ((empty : Int) == valid) = false := by decide
      simp only [he, Bool.false_eq_true, if_false]
      omega
    have := w.stored_count
    omega

/-- The only results `enqueue` can return under the invariant. -/
theorem WellFormed.enqueue_result {T : Type} {q : lock_free_queue T} (w : WellFormed q)
    {fuel : Nat} {v : T} {b : Bool} {q1 : lock_free_queue T}
    (h : q.enqueue fuel v = .ok (b, q1)) :
    (b = false ∧ q1 = q ∧ q.is_full = true) ∨
      (b = true ∧ q1 = enqueued_state q v ∧ q.is_full = false) := by
  cases fuel with
  | zero => simp [lock_free_queue.enqueue] at h
  | succ fuel =>
    rw [w.enqueue_eq] at h
    by_cases hf : q.is_full = true
    · simp only [hf, if_true, Except.ok.injEq, Prod.mk.injEq] at h
      exact Or.inl ⟨h.1.symm, h.2.symm, hf⟩
    · simp only [hf, Bool.false_eq_true, if_false, Except.ok.injEq, Prod.mk.injEq] at h
      exact Or.inr ⟨h.1.symm, h.2.symm, by simpa using hf⟩

/-- The only results `dequeue` can return under the invariant. -/
theorem WellFormed.dequeue_result {T : Type} {q : lock_free_queue T} (w : WellFormed q)
    {fuel : Nat} {x y : T} {b : Bool} {q1 : lock_free_queue T}
    (h : q.dequeue fuel x = .ok (b, y, q1)) :
    (b = false ∧ y = x ∧ q1 = q ∧ q.is_empty = true) ∨
      (∃ nd, q._items[q._head]? = some nd ∧ b = true ∧ y = nd.value ∧
        q1 = dequeued_state q nd ∧ q.is_empty = false) := by
  cases fuel with
  | zero => simp [lock_free_queue.dequeue] at h
  | succ fuel =>
    obtain ⟨nd, hnd⟩ := w.head_slot
    rw [w.dequeue_eq fuel x nd hnd] at h
    by_cases hf : q.is_empty = true
    · simp only [hf, if_true, Except.ok.injEq, Prod.mk.injEq] at h
      exact Or.inl ⟨h.1.symm, h.2.1.symm, h.2.2.symm, hf⟩
    · simp only [hf, Bool.false_eq_true, if_false, Except.ok.injEq, Prod.mk.injEq] at h
      exact Or.inr ⟨nd, hnd, h.1.symm, h.2.1.symm, h.2.2.symm, by simpa using hf⟩

theorem WellFormed.enqueue_preserved {T : Type} {q : lock_free_queue T} (w : WellFormed q)
    {fuel : Nat} {v : T} {b : Bool} {q1 : lock_free_queue T}
    (h : q.enqueue fuel v = .ok (b, q1)) : WellFormed q1 := by
  rcases w.enqueue_result h with ⟨_, rfl, _⟩ | ⟨_, rfl, hf⟩
  · exact w
  · exact w.enqueued hf v

theorem WellFormed.dequeue_preserved {T : Type} {q : lock_free_queue T} (w : WellFormed q)
    {fuel : Nat} {x y : T} {b : Bool} {q1 : lock_free_queue T}
    (h : q.dequeue fuel x = .ok (b, y, q1)) : WellFormed q1 := by
  rcases w.dequeue_result h with ⟨_, _, rfl, _⟩ | ⟨nd, hnd, _, _, rfl, hf⟩
  · exact w
  · exact w.dequeued hf nd hnd

/-- A freshly constructed queue satisfies the invariant. -/
theorem wellFormed_construct {T : Type} (g : Nat → T) {n : Nat} (h0 : 1 ≤ n)
    (h1 : n ≤ 2 ^ 30) : WellFormed (lock_free_queue.construct g n) := by
  obtain ⟨k, _, hs, _, _, hm, hi, hh, ht⟩ := construct_spec g h0 h1
  have hpos : 0 < 2 ^ k := Nat.two_pow_pos k
  have hst : ∀ (i : Nat) (nd : node T),
      (lock_free_queue.construct g n)._items[i]? = some nd → nd.status = empty := by
    intro i nd h
    rw [hi, List.getElem?_map] at h
    cases hr : (List.range (2 ^ k))[i]? with
    | none => rw [hr] at h; simp at h
    | some j =>
      rw [hr] at h
      simp only [Option.map_some', Option.some.injEq] at h
      rw [← h]
  refine ⟨⟨k, hs, hm⟩, ?_, ?_, ?_, ?_, ?_, ?_⟩
  · rw [hi, hs]; simp
  · rw [hh, hs]; exact hpos
  · rw [ht, hs]; exact hpos
  · intro i nd _ hocc
    unfold lock_free_queue.occupied at hocc
    rw [hh, ht] at hocc
    simp at hocc
  · intro i nd h _
    exact hst i nd h
  · unfold lock_free_queue.stored lock_free_queue.count
    rw [hh, ht, hi]
    simp [List.countP_map, empty, valid]

/-- Every state of single-threaded use satisfies the invariant. -/
theorem History.wellFormed {T : Type} {q : lock_free_queue T} {ens des : List T}
    (h : History q ens des) : WellFormed q := by
  induction h with
  | fresh g n h1 h2 => exact wellFormed_construct g h1 h2
  | enqueue fuel v b q1 _ hcall ih => exact ih.enqueue_preserved hcall
  | dequeue fuel x b y q1 _ hcall ih => exact ih.dequeue_preserved hcall

theorem Reachable.invariant {T : Type} {q : lock_free_queue T} (h : Reachable q) :
    WellFormed q := by
  obtain ⟨ens, des, hh⟩ := h
  exact hh.wellFormed

/-! ## The ring of occupied indices and the contents -/

theorem WellFormed.mem_ring_iff {T : Type} {q : lock_free_queue T} (w : WellFormed q)
    {i : Nat} (hi : i < q._size) : i ∈ q.ring ↔ q.occupied i := by
  have h1 := w.head_lt
  have h2 := w.tail_lt
  have hc := w.count_eq
  unfold lock_free_queue.ring lock_free_queue.occupied
  rw [List.mem_map]
  constructor
  · rintro ⟨k, hk, rfl⟩
    rw [List.mem_range] at hk
    rw [mod_wrap (by have := w.count_lt; omega)]
    split_ifs at hc ⊢ <;> omega
  · intro h
    by_cases hle : q._head ≤ i
    · refine ⟨i - q._head, ?_, ?_⟩
      · rw [List.mem_range]
        split_ifs at hc h <;> omega
      · rw [mod_wrap (by omega)]
        split_ifs <;> omega
    · refine ⟨i + q._size - q._head, ?_, ?_⟩
      · rw [List.mem_range]
        split_ifs at hc h <;> omega
      · rw [mod_wrap (by omega)]
        split_ifs <;> omega

theorem WellFormed.ring_enqueued {T : Type} {q : lock_free_queue T} (w : WellFormed q)
    (hf : q.is_full = false) (v : T) : (enqueued_state q v).ring = q.ring ++ [q._tail] := by
  have h1 := w.head_lt
  have h2 := w.tail_lt
  have w1 := w.enqueued hf v
  obtain ⟨t1, hT, ht1⟩ := enqueued_state_tail w v
  have hnf := w.not_full hf v
  have hc1 := w1.count_eq
  have hc := w.count_eq
  have hH : (enqueued_state q v)._head = q._head := rfl
  have hS : (enqueued_state q v)._size = q._size := rfl
  rw [hT, hH, hS] at hc1
  rw [hT] at hnf
  have hcc : (enqueued_state q v).count = q.count + 1 := by
    rw [hc1, hc]
    split_ifs <;> omega
  unfold lock_free_queue.ring
  rw [hcc, hH, hS, List.range_succ, List.map_append]
  congr 1
  simp only [List.map_cons, List.map_nil, List.cons.injEq, and_true]
  rw [mod_wrap (by have := w.count_lt; omega)]
  split_ifs at hc ⊢ <;> omega

theorem WellFormed.contents_enqueued {T : Type} {q : lock_free_queue T} (w : WellFormed q)
    (hf : q.is_full = false) (v : T) :
    (enqueued_state q v).contents = q.contents ++ [v] := by
  have hl : q._tail < q._items.length := by rw [w.length_items]; exact w.tail_lt
  unfold lock_free_queue.contents
  rw [w.ring_enqueued hf v, List.filterMap_append]
  congr 1
  · apply List.filterMap_congr
    intro i hi
    have hne : q._tail ≠ i := by
      rintro rfl
      exact w.tail_free ((w.mem_ring_iff w.tail_lt).1 hi)
    show Option.map _ ((q._items.set q._tail _)[i]?) = _
    rw [List.getElem?_set_ne hne]
  · show List.filterMap (fun i => Option.map (fun nd => nd.value)
      ((q._items.set q._tail { status := valid, value := v })[i]?)) [q._tail] = [v]
    simp [List.filterMap_cons, List.getElem?_set_self hl]

theorem WellFormed.ring_dequeued {T : Type} {q : lock_free_queue T} (w : WellFormed q)
    (hf : q.is_empty = false) (nd : node T) (hnd : q._items[q._head]? = some nd) :
    q.ring = q._head :: (dequeued_state q nd).ring := by
  have h3 := w.head_lt
  have h2 := w.tail_lt
  have w1 := w.dequeued hf nd hnd
  obtain ⟨h1, hH, hh1⟩ := dequeued_state_head w nd
  have hne := w.not_empty hf
  have hc1 := w1.count_eq
  have hc := w.count_eq
  have hT : (dequeued_state q nd)._tail = q._tail := rfl
  have hS : (dequeued_state q nd)._size = q._size := rfl
  rw [hT, hH, hS] at hc1
  have hcc : q.count = (dequeued_state q nd).count + 1 := by
    rw [hc1, hc]
    split_ifs <;> omega
  have hlt := w.count_lt
  unfold lock_free_queue.ring
  rw [hcc, hH, hS, List.range_succ_eq_map, List.map_cons, List.map_map]
  congr 1
  · simp [Nat.mod_eq_of_lt h3]
  · apply List.map_congr_left
    intro k hk
    rw [List.mem_range] at hk
    simp only [Function.comp_apply]
    rw [mod_wrap (by omega), mod_wrap (by omega)]
    split_ifs <;> omega

theorem WellFormed.contents_dequeued {T : Type} {q : lock_free_queue T} (w : WellFormed q)
    (hf : q.is_empty = false) (nd : node T) (hnd : q._items[q._head]? = some nd) :
    q.contents = nd.value :: (dequeued_state q nd).contents := by
  unfold lock_free_queue.contents
  rw [w.ring_dequeued hf nd hnd, List.filterMap_cons, hnd]
  simp only [Option.map_some']
  congr 1
  apply List.filterMap_congr
  intro i _
  show _ = Option.map _ ((q._items.set q._head _)[i]?)
  rw [List.getElem?_set]
  by_cases hi : q._head = i
  · subst hi
    have hl : q._head < q._items.length := lt_length_of_getElem? hnd
    rw [if_pos rfl, if_pos hl, hnd]
    rfl
  · rw [if_neg hi]

theorem contents_construct {T : Type} (g : Nat → T) {n : Nat} (h0 : 1 ≤ n)
    (h1 : n ≤ 2 ^ 30) : (lock_free_queue.construct g n).contents = [] := by
  have w := wellFormed_construct g h0 h1
  obtain ⟨k, _, hs, _, _, hm, hi, hh, ht⟩ := construct_spec g h0 h1
  have hc := w.count_eq
  rw [hh, ht] at hc
  unfold lock_free_queue.contents lock_free_queue.ring
  rw [hc]
  simp

/-- The calls that returned true, in order: what was enqueued is what was dequeued followed
by what is still stored. -/
theorem History.fifo {T : Type} {q : lock_free_queue T} {ens des : List T}
    (h : History q ens des) : ens = des ++ q.contents := by
  induction h with
  | fresh g n h1 h2 => rw [contents_construct g h1 h2]; rfl
  | @enqueue q ens des fuel v b q1 hq hcall ih =>
    rcases hq.wellFormed.enqueue_result hcall with ⟨rfl, rfl, _⟩ | ⟨rfl, rfl, hf⟩
    · simpa using ih
    · rw [hq.wellFormed.contents_enqueued hf v, if_pos rfl, ih, List.append_assoc]
  | @dequeue q ens des fuel x b y q1 hq hcall ih =>
    rcases hq.wellFormed.dequeue_result hcall with
      ⟨rfl, _, rfl, _⟩ | ⟨nd, hnd, rfl, rfl, rfl, hf⟩
    · simpa using ih
    · rw [hq.wellFormed.contents_dequeued hf nd hnd] at ih
      rw [if_pos rfl, ih]
      simp

theorem length_filterMap_of_isSome {α β : Type} (f : α → Option β) (l : List α)
    (h : ∀ a ∈ l, (f a).isSome = true) : (l.filterMap f).length = l.length := by
  induction l with
  | nil => rfl
  | cons a l ih =>
    have ha := h a (List.mem_cons_self a l)
    obtain ⟨b, hb⟩ := Option.isSome_iff_exists.1 ha
    rw [List.filterMap_cons, hb]
    simp only [List.length_cons]
    rw [ih (fun c hc => h c (List.mem_cons_of_mem a hc))]

theorem WellFormed.ring_lt {T : Type} {q : lock_free_queue T} (w : WellFormed q)
    {i : Nat} (hi : i ∈ q.ring) : i < q._size := by
  unfold lock_free_queue.ring at hi
  rw [List.mem_map] at hi
  obtain ⟨k, _, rfl⟩ := hi
  exact Nat.mod_lt _ w.size_pos

theorem WellFormed.contents_length {T : Type} {q : lock_free_queue T} (w : WellFormed q) :
    q.contents.length = q.count := by
  unfold lock_free_queue.contents
  rw [length_filterMap_of_isSome]
  · unfold lock_free_queue.ring
    simp
  · intro i hi
    have hl : i < q._items.length := by rw [w.length_items]; exact w.ring_lt hi
    rw [List.getElem?_eq_getElem hl]
    rfl

theorem WellFormed.count_enqueued {T : Type} {q : lock_free_queue T} (w : WellFormed q)
    (hf : q.is_full = false) (v : T) : (enqueued_state q v).count = q.count + 1 := by
  rw [← w.contents_length, ← (w.enqueued hf v).contents_length, w.contents_enqueued hf v]
  simp

/-- The return values of a run of `enqueue` calls: call number `j` (from 0) returns true
exactly when `j` more items still fit. -/
theorem WellFormed.enqueue_all_results {T : Type} (fuel : Nat) (l : List T) :
    ∀ {q : lock_free_queue T}, WellFormed q → ∀ {bs : List Bool} {q1 : lock_free_queue T},
      q.enqueue_all fuel l = .ok (bs, q1) →
      bs = (List.range l.length).map (fun j => decide (q.count + j < q._size - 1)) := by
  induction l with
  | nil =>
    intro q _ bs q1 h
    simp only [lock_free_queue.enqueue_all, Except.ok.injEq, Prod.mk.injEq] at h
    rw [← h.1]
    rfl
  | cons v vs ih =>
    intro q w bs q1 h
    unfold lock_free_queue.enqueue_all at h
    cases he : q.enqueue fuel v with
    | error e => rw [he] at h; simp at h
    | ok r =>
      obtain ⟨b, q2⟩ := r
      rw [he] at h
      simp only at h
      cases hr : q2.enqueue_all fuel vs with
      | error e => rw [hr] at h; simp at h
      | ok r2 =>
        obtain ⟨cs, q3⟩ := r2
        rw [hr] at h
        simp only [Except.ok.injEq, Prod.mk.injEq] at h
        have w2 := w.enqueue_preserved he
        have hcs := ih w2 hr
        rw [← h.1, hcs, List.length_cons, List.range_succ_eq_map, List.map_cons, List.map_map]
        have hlt := w.count_lt
        rcases w.enqueue_result he with ⟨rfl, rfl, hf⟩ | ⟨rfl, rfl, hf⟩
        · have hc := w.is_full_iff.1 hf
          congr 1
          · simp; omega
          · apply List.map_congr_left
            intro j _
            simp only [Function.comp_apply, decide_eq_decide]
            omega
        · have hc : q.count ≠ q._size - 1 := fun h => by
            rw [w.is_full_iff.2 h] at hf; exact Bool.noConfusion hf
          congr 1
          · simp; omega
          · apply List.map_congr_left
            intro j _
            simp only [Function.comp_apply, decide_eq_decide]
            rw [w.count_enqueued hf v]
            show q.count + 1 + j < q._size - 1 ↔ q.count + (j + 1) < q._size - 1
            omega

/-- A run of `enqueue` calls always returns under the invariant. -/
theorem WellFormed.enqueue_all_total {T : Type} (fuel : Nat) (l : List T) :
    ∀ {q : lock_free_queue T}, WellFormed q →
      ∃ bs q1, q.enqueue_all (fuel + 1) l = .ok (bs, q1) ∧ WellFormed q1 := by
  induction l with
  | nil => intro q w; exact ⟨[], q, rfl, w⟩
  | cons v vs ih =>
    intro q w
    obtain ⟨b, q2, he⟩ : ∃ b q2, q.enqueue (fuel + 1) v = .ok (b, q2) :=
      ⟨_, _, w.enqueue_eq fuel v⟩
    have w2 := w.enqueue_preserved he
    obtain ⟨cs, q3, hr, w3⟩ := ih w2
    refine ⟨b :: cs, q3, ?_, w3⟩
    unfold lock_free_queue.enqueue_all
    rw [he]
    simp only
    rw [hr]

theorem range_map_decide_lt (c : Nat) :
    (List.range (c + 1)).map (fun j => decide (j < c)) = List.replicate c true ++ [false] := by
  rw [List.range_succ, List.map_append]
  congr 1
  · rw [List.eq_replicate_iff]
    constructor
    · simp
    · intro b hb
      rw [List.mem_map] at hb
      obtain ⟨j, hj, rfl⟩ := hb
      rw [List.mem_range] at hj
      simp [hj]
  · simp

/-! ## Capacity -/

theorem construct_smallest {T : Type} (g : Nat → T) {n : Nat} (h0 : 1 ≤ n)
    (h1 : n ≤ 2 ^ 30) : smallest_pow2_ge (lock_free_queue.construct g n)._size n := by
  obtain ⟨k, _, hs, hle, hmin, _⟩ := construct_spec g h0 h1
  refine ⟨⟨k, hs⟩, by rw [hs]; exact hle, ?_⟩
  intro j hj
  rw [hs]
  exact Nat.pow_le_pow_right (by norm_num) (hmin j hj)

theorem smallest_pow2_ge_unique {p r n : Nat} (hp : smallest_pow2_ge p n)
    (hr : smallest_pow2_ge r n) : p = r := by
  obtain ⟨⟨k, hk⟩, hpn, hpmin⟩ := hp
  obtain ⟨⟨j, hj⟩, hrn, hrmin⟩ := hr
  have a := hpmin j (by rw [← hj]; exact hrn)
  have b := hrmin k (by rw [← hk]; exact hpn)
  rw [← hj] at a
  rw [← hk] at b
  omega

/-- C4: for every requested size `n` with `1 ≤ n ≤ 2^30` the constructor sets `_size` to
the smallest power of two that is `≥ n` (to `n` itself when `n` is a power of two) and
`_sizebitmask` to `_size - 1`, and `get_index x = x & _sizebitmask` is `x mod _size` for
every `x ≥ 0`. -/
theorem C4_constructor_rounds_up {T : Type} (g : Nat → T) (n : Nat) (h0 : 1 ≤ n)
    (h1 : n ≤ 2 ^ 30) :
    smallest_pow2_ge (lock_free_queue.construct g n)._size n ∧
      ((∃ k, n = 2 ^ k) → (lock_free_queue.construct g n)._size = n) ∧
      (lock_free_queue.construct g n)._sizebitmask = (lock_free_queue.construct g n)._size - 1 ∧
      ∀ x, (lock_free_queue.construct g n).get_index x =
        x % (lock_free_queue.construct g n)._size := by
  have hsm := construct_smallest g h0 h1
  have w := wellFormed_construct g h0 h1
  refine ⟨hsm, ?_, ?_, fun x => w.get_index_mod x⟩
  · rintro ⟨k, hk⟩
    have := hsm.2.2 k (by rw [← hk])
    have := hsm.2.1
    omega
  · obtain ⟨k, a, b⟩ := w.size_pow
    rw [a, b]

theorem C4_constructor_rounds_up_witness :
    1 ≤ 5 ∧ 5 ≤ 2 ^ 30 ∧
      smallest_pow2_ge (lock_free_queue.construct (fun _ => (0 : Int)) 5)._size 5 ∧
      ((∃ k, 5 = 2 ^ k) → (lock_free_queue.construct (fun _ => (0 : Int)) 5)._size = 5) ∧
      (lock_free_queue.construct (fun _ => (0 : Int)) 5)._sizebitmask =
        (lock_free_queue.construct (fun _ => (0 : Int)) 5)._size - 1 ∧
      ∀ x, (lock_free_queue.construct (fun _ => (0 : Int)) 5).get_index x =
        x % (lock_free_queue.construct (fun _ => (0 : Int)) 5)._size :=
  ⟨by decide, by decide, C4_constructor_rounds_up (fun _ => (0 : Int)) 5 (by decide) (by decide)⟩

/-- C3: for every requested size `n` with `1 ≤ n ≤ 2^30`, with `p` the smallest power of
two `≥ n` and `C = p - 1`: on the freshly constructed queue, with no dequeue in between,
the first `C` calls of `enqueue` return true and call number `C + 1` returns false.  For
`n = 5` and for `n = 8` the usable capacity `C` is 7. -/
theorem C3_usable_capacity {T : Type} (g : Nat → T) (n p : Nat) (h0 : 1 ≤ n)
    (h1 : n ≤ 2 ^ 30) (hp : smallest_pow2_ge p n) (vs : List T) (hvs : vs.length = p - 1)
    (v : T) (fuel : Nat) :
    (∃ q1, (lock_free_queue.construct g n).enqueue_all (fuel + 1) (vs ++ [v]) =
        .ok (List.replicate (p - 1) true ++ [false], q1)) ∧
      (n = 5 ∨ n = 8 → p - 1 = 7) := by
  have w := wellFormed_construct g h0 h1
  have hsz : (lock_free_queue.construct g n)._size = p :=
    smallest_pow2_ge_unique (construct_smallest g h0 h1) hp
  constructor
  · obtain ⟨bs, q1, hrun, _⟩ := WellFormed.enqueue_all_total fuel (vs ++ [v]) w
    refine ⟨q1, ?_⟩
    rw [hrun, WellFormed.enqueue_all_results _ _ w hrun]
    have hc : (lock_free_queue.construct g n).count = 0 := by
      rw [← w.contents_length, contents_construct g h0 h1]; rfl
    rw [hc, hsz, List.length_append, hvs]
    simp only [List.length_singleton, Nat.zero_add]
    rw [range_map_decide_lt]
  · intro hn
    obtain ⟨⟨k, hk⟩, hle, hmin⟩ := hp
    have h8 : p ≤ 2 ^ 3 := hmin 3 (by rcases hn with rfl | rfl <;> norm_num)
    have hk3 : k ≤ 3 := by
      by_contra hgt
      have : 2 ^ 4 ≤ 2 ^ k := Nat.pow_le_pow_right (by norm_num) (by omega)
      rw [← hk] at this
      omega
    have h5 : 5 ≤ p := by rcases hn with rfl | rfl <;> omega
    subst hk
    interval_cases k <;> simp at h5 ⊢

theorem smallest_pow2_ge_8_5 : smallest_pow2_ge 8 5 := by
  refine ⟨⟨3, rfl⟩, by decide, ?_⟩
  intro j hj
  by_contra hlt
  have hj3 : j < 3 := by
    by_contra hge
    have : 2 ^ 3 ≤ 2 ^ j := Nat.pow_le_pow_right (by norm_num) (by omega)
    omega
  interval_cases j <;> omega

theorem C3_usable_capacity_witness :
    1 ≤ 5 ∧ 5 ≤ 2 ^ 30 ∧ smallest_pow2_ge 8 5 ∧
      [10, 11, 12, 13, 14, 15, (16 : Int)].length = 8 - 1 ∧
      ((∃ q1, (lock_free_queue.construct (fun _ => (0 : Int)) 5).enqueue_all (0 + 1)
          ([10, 11, 12, 13, 14, 15, 16] ++ [17]) =
          .ok (List.replicate (8 - 1) true ++ [false], q1)) ∧
        ((5 : Nat) = 5 ∨ (5 : Nat) = 8 → 8 - 1 = 7)) :=
  ⟨by decide, by decide, smallest_pow2_ge_8_5, rfl,
    C3_usable_capacity (fun _ => (0 : Int)) 5 8 (by decide) (by decide) smallest_pow2_ge_8_5
      [10, 11, 12, 13, 14, 15, 16] rfl 17 0⟩

/-! ## Full and empty -/

/-- C5: in single-threaded use `enqueue(v)` returns, it returns false exactly when
`is_full()` holds at the call, and when it returns false the queue (cursors and every
slot) is unchanged. -/
theorem C5_enqueue_false_iff_full {T : Type} (q : lock_free_queue T) (hq : Reachable q)
    (fuel : Nat) (v : T) :
    ∃ b q1, q.enqueue (fuel + 1) v = .ok (b, q1) ∧
      (b = false ↔ q.is_full = true) ∧ (b = false → q1 = q) := by
  have w := hq.invariant
  obtain ⟨b, q1, he⟩ : ∃ b q1, q.enqueue (fuel + 1) v = .ok (b, q1) :=
    ⟨_, _, w.enqueue_eq fuel v⟩
  rcases w.enqueue_result he with ⟨rfl, rfl, hf⟩ | ⟨rfl, rfl, hf⟩
  · exact ⟨false, _, he, by simp [hf], fun _ => rfl⟩
  · exact ⟨true, _, he, by simp [hf], by simp⟩

theorem C5_enqueue_false_iff_full_witness :
    Reachable (lock_free_queue.construct (fun _ => (0 : Int)) 1) ∧
      ∃ b q1, (lock_free_queue.construct (fun _ => (0 : Int)) 1).enqueue (0 + 1) 7 = .ok (b, q1) ∧
        (b = false ↔ (lock_free_queue.construct (fun _ => (0 : Int)) 1).is_full = true) ∧
        (b = false → q1 = lock_free_queue.construct (fun _ => (0 : Int)) 1) :=
  ⟨⟨[], [], History.fresh _ 1 (by decide) (by decide)⟩,
    C5_enqueue_false_iff_full _ ⟨[], [], History.fresh _ 1 (by decide) (by decide)⟩ 0 7⟩

/-- C6: in single-threaded use `dequeue` returns, it returns false exactly when
`is_empty()` holds at the call, and when it returns false the output variable and the
queue are unchanged.  It returns false on a queue from which every enqueued item has been
dequeued, and on a freshly constructed queue. -/
theorem C6_dequeue_false_iff_empty {T : Type} (q : lock_free_queue T) (ens des : List T)
    (hq : History q ens des) (fuel : Nat) (x : T) :
    (∃ b y q1, q.dequeue (fuel + 1) x = .ok (b, y, q1) ∧
        (b = false ↔ q.is_empty = true) ∧ (b = false → y = x ∧ q1 = q)) ∧
      (des = ens → q.dequeue (fuel + 1) x = .ok (false, x, q)) ∧
      (∀ (g : Nat → T) (n : Nat), 1 ≤ n → n ≤ 2 ^ 30 →
        (lock_free_queue.construct g n).dequeue (fuel + 1) x =
          .ok (false, x, lock_free_queue.construct g n)) := by
  have w := hq.wellFormed
  obtain ⟨nd, hnd⟩ := w.head_slot
  have key : ∀ {r : lock_free_queue T}, WellFormed r → r.contents = [] →
      r.dequeue (fuel + 1) x = .ok (false, x, r) := by
    intro r wr hc
    obtain ⟨nd1, hnd1⟩ := wr.head_slot
    have he : r.is_empty = true := by
      rw [wr.is_empty_iff, ← wr.contents_length, hc]; rfl
    rw [wr.dequeue_eq fuel x nd1 hnd1, he]
    rfl
  obtain ⟨b, y, q1, he⟩ : ∃ b y q1, q.dequeue (fuel + 1) x = .ok (b, y, q1) :=
    ⟨_, _, _, w.dequeue_eq fuel x nd hnd⟩
  refine ⟨?_, ?_, ?_⟩
  · rcases w.dequeue_result he with ⟨rfl, rfl, rfl, hf⟩ | ⟨nd1, _, rfl, rfl, rfl, hf⟩
    · exact ⟨false, _, _, he, by simp [hf], fun _ => ⟨rfl, rfl⟩⟩
    · exact ⟨true, _, _, he, by simp [hf], by simp⟩
  · intro hde
    apply key w
    have := hq.fifo
    rw [hde] at this
    exact List.append_right_eq_self.1 this.symm
  · intro g n h0 h1
    exact key (wellFormed_construct g h0 h1) (contents_construct g h0 h1)

/-- The queue of the source's `main` (requested size 5) after `enqueue(7)`. -/
theorem history_one_enqueued :
    History (enqueued_state (lock_free_queue.construct (fun _ => (0 : Int)) 5) 7) [7] [] :=
  History.enqueue 1 7 true _ (History.fresh (fun _ => (0 : Int)) 5 (by decide) (by decide))
    (by rfl)

/-- The queue of the source's `main` after `enqueue(7)` and `dequeue(y)`. -/
theorem history_drained :
    History (dequeued_state (enqueued_state (lock_free_queue.construct (fun _ => (0 : Int)) 5) 7)
      { status := valid, value := 7 }) [7] [7] :=
  History.dequeue 1 0 true 7 _ history_one_enqueued (by rfl)

theorem C6_dequeue_false_iff_empty_witness :
    ∃ q : lock_free_queue Int, History q [7] [7] ∧
      ((∃ b y q1, q.dequeue (0 + 1) 3 = .ok (b, y, q1) ∧
          (b = false ↔ q.is_empty = true) ∧ (b = false → y = 3 ∧ q1 = q)) ∧
        (([7] : List Int) = [7] → q.dequeue (0 + 1) 3 = .ok (false, 3, q)) ∧
        (∀ (g : Nat → Int) (n : Nat), 1 ≤ n → n ≤ 2 ^ 30 →
          (lock_free_queue.construct g n).dequeue (0 + 1) 3 =
            .ok (false, 3, lock_free_queue.construct g n))) :=
  ⟨_, history_drained, C6_dequeue_false_iff_empty _ [7] [7] history_drained 0 3⟩

/-! ## FIFO refinement -/

/-- C1: in single-threaded use the queue refines a bounded FIFO list.  For every state `q`
reached from a fresh queue, with `contents q` the values of the slots at
`head, head+1, ..., tail-1` (mod capacity): the contents never hold more than
`_size - 1` values; `enqueue(v)` returns, with true exactly when there is room, and a
successful call appends `v` at the end of the contents; `dequeue` returns, with true
exactly when the contents are not empty, and a successful call returns the first element
of the contents and removes it.  So the values enqueued so far are the values dequeued so
far, in the same order, followed by the contents. -/
theorem C1_fifo_refinement {T : Type} (q : lock_free_queue T) (ens des : List T)
    (hq : History q ens des) :
    q.contents.length ≤ q._size - 1 ∧
      (∀ (fuel : Nat) (v : T), ∃ b q1, q.enqueue (fuel + 1) v = .ok (b, q1) ∧
        (b = true ↔ q.contents.length < q._size - 1) ∧
        (b = true → q1.contents = fifo_enqueue q.contents v) ∧
        (b = false → q1 = q)) ∧
      (∀ (fuel : Nat) (x : T), ∃ b y q1, q.dequeue (fuel + 1) x = .ok (b, y, q1) ∧
        (b = true ↔ q.contents ≠ []) ∧
        (b = true → fifo_dequeue q.contents = some (y, q1.contents)) ∧
        (b = false → q1 = q)) ∧
      ens = des ++ q.contents := by
  have w := hq.wellFormed
  have hlen := w.contents_length
  have hlt := w.count_lt
  refine ⟨by omega, ?_, ?_, hq.fifo⟩
  · intro fuel v
    obtain ⟨b, q1, he⟩ : ∃ b q1, q.enqueue (fuel + 1) v = .ok (b, q1) :=
      ⟨_, _, w.enqueue_eq fuel v⟩
    rcases w.enqueue_result he with ⟨rfl, rfl, hf⟩ | ⟨rfl, rfl, hf⟩
    · refine ⟨false, _, he, ?_, by simp, fun _ => rfl⟩
      have := w.is_full_iff.1 hf
      simp only [Bool.false_eq_true, false_iff]
      omega
    · refine ⟨true, _, he, ?_, fun _ => w.contents_enqueued hf v, by simp⟩
      have : q.count ≠ q._size - 1 := fun h => by
        rw [w.is_full_iff.2 h] at hf; exact Bool.noConfusion hf
      simp only [true_iff]
      omega
  · intro fuel x
    obtain ⟨nd, hnd⟩ := w.head_slot
    obtain ⟨b, y, q1, he⟩ : ∃ b y q1, q.dequeue (fuel + 1) x = .ok (b, y, q1) :=
      ⟨_, _, _, w.dequeue_eq fuel x nd hnd⟩
    rcases w.dequeue_result he with ⟨rfl, rfl, rfl, hf⟩ | ⟨nd1, hnd1, rfl, rfl, rfl, hf⟩
    · refine ⟨false, _, _, he, ?_, by simp, fun _ => rfl⟩
      have := w.is_empty_iff.1 hf
      simp only [Bool.false_eq_true, ne_eq, false_iff, not_not]
      apply List.eq_nil_of_length_eq_zero
      omega
    · refine ⟨true, _, _, he, ?_, ?_, by simp⟩
      · rw [w.contents_dequeued hf nd1 hnd1]
        simp
      · intro _
        rw [w.contents_dequeued hf nd1 hnd1]
        rfl

theorem C1_fifo_refinement_witness :
    ∃ q : lock_free_queue Int, History q [7] [] ∧ q.contents = [7] ∧
      (q.contents.length ≤ q._size - 1 ∧
        (∀ (fuel : Nat) (v : Int), ∃ b q1, q.enqueue (fuel + 1) v = .ok (b, q1) ∧
          (b = true ↔ q.contents.length < q._size - 1) ∧
          (b = true → q1.contents = fifo_enqueue q.contents v) ∧
          (b = false → q1 = q)) ∧
        (∀ (fuel : Nat) (x : Int), ∃ b y q1, q.dequeue (fuel + 1) x = .ok (b, y, q1) ∧
          (b = true ↔ q.contents ≠ []) ∧
          (b = true → fifo_dequeue q.contents = some (y, q1.contents)) ∧
          (b = false → q1 = q)) ∧
        ([7] : List Int) = [] ++ q.contents) :=
  ⟨_, history_one_enqueued, by decide, C1_fifo_refinement _ [7] [] history_one_enqueued⟩

/-! ## Round trip -/

/-- C7: for every requested size `n` with `2 ≤ n ≤ 2^30` and every value `x`, on the
freshly constructed queue `enqueue(x)` returns true, the following `dequeue(y)` returns
true with `y == x`, and afterwards `is_empty()` is true and a further `dequeue` returns
false.  (The source's `main` runs the case `n = 5`, `x = 7`, `y = 0`.) -/
theorem C7_round_trip {T : Type} (g : Nat → T) (n : Nat) (h0 : 2 ≤ n) (h1 : n ≤ 2 ^ 30)
    (x y : T) (fuel : Nat) :
    ∃ q1 q2, (lock_free_queue.construct g n).enqueue (fuel + 1) x = .ok (true, q1) ∧
      q1.dequeue (fuel + 1) y = .ok (true, x, q2) ∧
      q2.is_empty = true ∧
      ∀ z, q2.dequeue (fuel + 1) z = .ok (false, z, q2) := by
  have h01 : 1 ≤ n := by omega
  have w := wellFormed_construct g h01 h1
  have hc0 : (lock_free_queue.construct g n).count = 0 := by
    rw [← w.contents_length, contents_construct g h01 h1]; rfl
  have hsz : 2 ≤ (lock_free_queue.construct g n)._size := by
    have := (construct_smallest g h01 h1).2.1
    omega
  have hf : (lock_free_queue.construct g n).is_full = false := by
    cases h : (lock_free_queue.construct g n).is_full
    · rfl
    · have := w.is_full_iff.1 h
      omega
  have he := w.enqueue_eq fuel x
  rw [hf] at he
  have w1 := w.enqueued hf x
  have hcon1 := w.contents_enqueued hf x
  rw [contents_construct g h01 h1] at hcon1
  have hne : (enqueued_state (lock_free_queue.construct g n) x).is_empty = false := by
    cases h : (enqueued_state (lock_free_queue.construct g n) x).is_empty
    · rfl
    · have := w1.is_empty_iff.1 h
      rw [← w1.contents_length, hcon1] at this
      simp at this
  obtain ⟨nd, hnd⟩ := w1.head_slot
  have hd := w1.dequeue_eq fuel y nd hnd
  rw [hne] at hd
  have hcon2 := w1.contents_dequeued hne nd hnd
  rw [hcon1] at hcon2
  simp only [List.nil_append, List.cons.injEq] at hcon2
  have w2 := w1.dequeued hne nd hnd
  have hemp : (dequeued_state (enqueued_state (lock_free_queue.construct g n) x) nd).is_empty
      = true := by
    rw [w2.is_empty_iff, ← w2.contents_length, ← hcon2.2]; rfl
  refine ⟨_, _, he, ?_, hemp, ?_⟩
  · rw [hd, hcon2.1]; rfl
  · intro z
    obtain ⟨nd2, hnd2⟩ := w2.head_slot
    rw [w2.dequeue_eq fuel z nd2 hnd2, hemp]
    rfl

theorem C7_round_trip_witness :
    2 ≤ 5 ∧ 5 ≤ 2 ^ 30 ∧
      ∃ q1 q2, (lock_free_queue.construct (fun _ => (0 : Int)) 5).enqueue (0 + 1) 7 =
          .ok (true, q1) ∧
        q1.dequeue (0 + 1) 0 = .ok (true, 7, q2) ∧
        q2.is_empty = true ∧
        ∀ z, q2.dequeue (0 + 1) z = .ok (false, z, q2) :=
  ⟨by decide, by decide, C7_round_trip (fun _ => (0 : Int)) 5 (by decide) (by decide) 7 0 0⟩

/-! ## The reserved slot -/

/-- C9: in every state of single-threaded use the slot array has `_size` cells, every
slot's status is `empty` or `valid`, the `valid` slots are exactly those at the indices
`head, head+1, ..., tail-1` (mod capacity), at least one slot is `empty`, the number of
stored items is at most `_size - 1`, `is_full()` is true exactly when `_size - 1` items are
stored and `is_empty()` exactly when none is. -/
theorem C9_reserved_slot {T : Type} (q : lock_free_queue T) (hq : Reachable q) :
    q._items.length = q._size ∧
      (∀ (i : Nat) (nd : node T), q._items[i]? = some nd →
        nd.status = empty ∨ nd.status = valid) ∧
      (∀ (i : Nat) (nd : node T), q._items[i]? = some nd →
        (nd.status = valid ↔ i ∈ q.ring)) ∧
      (∃ (i : Nat) (nd : node T), q._items[i]? = some nd ∧ nd.status = empty) ∧
      q.stored ≤ q._size - 1 ∧
      (q.is_full = true ↔ q.stored = q._size - 1) ∧
      (q.is_empty = true ↔ q.stored = 0) := by
  have w := hq.invariant
  have hlt := w.count_lt
  have hsc := w.stored_count
  refine ⟨w.length_items, ?_, ?_, ?_, by omega, ?_, ?_⟩
  · intro i nd hi
    by_cases ho : q.occupied i
    · exact Or.inr (w.status_valid i nd hi ho)
    · exact Or.inl (w.status_empty i nd hi ho)
  · intro i nd hi
    have hil : i < q._size := by rw [← w.length_items]; exact lt_length_of_getElem? hi
    rw [w.mem_ring_iff hil]
    constructor
    · intro hv
      by_contra ho
      have := w.status_empty i nd hi ho
      rw [hv] at this
      exact absurd this (by decide)
    · exact w.status_valid i nd hi
  · have hl : q._tail < q._items.length := by rw [w.length_items]; exact w.tail_lt
    exact ⟨q._tail, q._items[q._tail], List.getElem?_eq_getElem hl,
      w.status_empty _ _ (List.getElem?_eq_getElem hl) w.tail_free⟩
  · rw [hsc]; exact w.is_full_iff
  · rw [hsc]; exact w.is_empty_iff

theorem C9_reserved_slot_witness :
    Reachable (lock_free_queue.construct (fun _ => (0 : Int)) 8) ∧
      ((lock_free_queue.construct (fun _ => (0 : Int)) 8)._items.length =
          (lock_free_queue.construct (fun _ => (0 : Int)) 8)._size ∧
        (∀ (i : Nat) (nd : node Int),
          (lock_free_queue.construct (fun _ => (0 : Int)) 8)._items[i]? = some nd →
          nd.status = empty ∨ nd.status = valid) ∧
        (∀ (i : Nat) (nd : node Int),
          (lock_free_queue.construct (fun _ => (0 : Int)) 8)._items[i]? = some nd →
          (nd.status = valid ↔ i ∈ (lock_free_queue.construct (fun _ => (0 : Int)) 8).ring)) ∧
        (∃ (i : Nat) (nd : node Int),
          (lock_free_queue.construct (fun _ => (0 : Int)) 8)._items[i]? = some nd ∧
          nd.status = empty) ∧
        (lock_free_queue.construct (fun _ => (0 : Int)) 8).stored ≤
          (lock_free_queue.construct (fun _ => (0 : Int)) 8)._size - 1 ∧
        ((lock_free_queue.construct (fun _ => (0 : Int)) 8).is_full = true ↔
          (lock_free_queue.construct (fun _ => (0 : Int)) 8).stored =
            (lock_free_queue.construct (fun _ => (0 : Int)) 8)._size - 1) ∧
        ((lock_free_queue.construct (fun _ => (0 : Int)) 8).is_empty = true ↔
          (lock_free_queue.construct (fun _ => (0 : Int)) 8).stored = 0)) :=
  ⟨⟨[], [], History.fresh _ 8 (by decide) (by decide)⟩,
    C9_reserved_slot _ ⟨[], [], History.fresh _ 8 (by decide) (by decide)⟩⟩

/-! ## The end-to-end scenario -/

/-- C10, as stated, fails: for no requested size between 1 and `2^30` do four calls of
`enqueue` on the fresh queue return true and the fifth false.  The usable capacity is a
power of two minus one, and 4 is not. -/
theorem C10_no_usable_capacity_four :
    ¬ ∃ (n fuel : Nat) (g : Nat → Int) (vs : List Int) (v : Int) (q1 : lock_free_queue Int),
      1 ≤ n ∧ n ≤ 2 ^ 30 ∧ vs.length = 4 ∧
      (lock_free_queue.construct g n).enqueue_all fuel (vs ++ [v]) =
        .ok ([true, true, true, true, false], q1) := by
  rintro ⟨n, fuel, g, vs, v, q1, h0, h1, hvs, hrun⟩
  have w := wellFormed_construct g h0 h1
  have hres := WellFormed.enqueue_all_results _ _ w hrun
  have hc : (lock_free_queue.construct g n).count = 0 := by
    rw [← w.contents_length, contents_construct g h0 h1]; rfl
  obtain ⟨k, hk, _⟩ := w.size_pow
  rw [hc, hk, List.length_append, hvs] at hres
  have e : List.range (4 + [v].length) = [0, 1, 2, 3, 4] := rfl
  rw [e] at hres
  simp only [List.map_cons, List.map_nil, Nat.zero_add, List.cons.injEq, true_eq_decide_iff,
    false_eq_decide_iff, and_true] at hres
  obtain ⟨_, _, _, h3, h4⟩ := hres
  have h5 : 2 ^ k = 5 := by omega
  have hk3 : k < 3 := by
    by_contra hge
    have : 2 ^ 3 ≤ 2 ^ k := Nat.pow_le_pow_right (by norm_num) (by omega)
    omega
  interval_cases k <;> omega

theorem WellFormed.enqueue_size {T : Type} {q : lock_free_queue T} (w : WellFormed q)
    {fuel : Nat} {v : T} {b : Bool} {q1 : lock_free_queue T}
    (h : q.enqueue fuel v = .ok (b, q1)) : q1._size = q._size := by
  rcases w.enqueue_result h with ⟨_, rfl, _⟩ | ⟨_, rfl, _⟩ <;> rfl

theorem WellFormed.dequeue_size {T : Type} {q : lock_free_queue T} (w : WellFormed q)
    {fuel : Nat} {x y : T} {b : Bool} {q1 : lock_free_queue T}
    (h : q.dequeue fuel x = .ok (b, y, q1)) : q1._size = q._size := by
  rcases w.dequeue_result h with ⟨_, _, rfl, _⟩ | ⟨nd, _, _, _, rfl, _⟩ <;> rfl

/-- A run of `enqueue` calls extends the history by the accepted elements and keeps the
capacity. -/
theorem History.enqueue_all {T : Type} (fuel : Nat) (l : List T) :
    ∀ {q : lock_free_queue T} {ens des : List T}, History q ens des →
      ∀ {bs : List Bool} {q1 : lock_free_queue T}, q.enqueue_all fuel l = .ok (bs, q1) →
      History q1 (ens ++ accepted l bs) des ∧ q1._size = q._size := by
  induction l with
  | nil =>
    intro q ens des hq bs q1 h
    simp only [lock_free_queue.enqueue_all, Except.ok.injEq, Prod.mk.injEq] at h
    rw [← h.1, ← h.2]
    simpa [accepted] using hq
  | cons v vs ih =>
    intro q ens des hq bs q1 h
    unfold lock_free_queue.enqueue_all at h
    cases he : q.enqueue fuel v with
    | error e => rw [he] at h; simp at h
    | ok r =>
      obtain ⟨b, q2⟩ := r
      rw [he] at h
      simp only at h
      cases hr : q2.enqueue_all fuel vs with
      | error e => rw [hr] at h; simp at h
      | ok r2 =>
        obtain ⟨cs, q3⟩ := r2
        rw [hr] at h
        simp only [Except.ok.injEq, Prod.mk.injEq] at h
        obtain ⟨h2, hs2⟩ := ih (History.enqueue fuel v b q2 hq he) hr
        rw [← h.1, ← h.2]
        refine ⟨?_, by rw [hs2, hq.wellFormed.enqueue_size he]⟩
        cases b
        · simpa [accepted] using h2
        · simpa [accepted] using h2

theorem smallest_pow2_ge_4_4 : smallest_pow2_ge 4 4 := by
  refine ⟨⟨2, rfl⟩, by decide, ?_⟩
  intro j hj
  exact hj

/-- C10, amended: requested size 4 gives usable capacity 3; on that fresh queue three
calls of `enqueue` return true, a fourth returns false, one `dequeue` then returns true
(delivering the first value), and after it the fourth `enqueue` returns true. -/
theorem C10_scenario_capacity_three :
    ∃ n, 1 ≤ n ∧ n ≤ 2 ^ 30 ∧ ∀ (T : Type) (g : Nat → T) (a b c d x : T),
      ∃ q1 q2 q3, (lock_free_queue.construct g n).enqueue_all 1 [a, b, c, d] =
          .ok ([true, true, true, false], q1) ∧
        q1.dequeue 1 x = .ok (true, a, q2) ∧
        q2.enqueue 1 d = .ok (true, q3) := by
  refine ⟨4, by decide, by decide, ?_⟩
  intro T g a b c d x
  have h0 : 1 ≤ 4 := by decide
  have h1 : 4 ≤ 2 ^ 30 := by decide
  have hq0 : History (lock_free_queue.construct g 4) [] [] := History.fresh g 4 h0 h1
  have w := hq0.wellFormed
  have hsz : (lock_free_queue.construct g 4)._size = 4 :=
    smallest_pow2_ge_unique (construct_smallest g h0 h1) smallest_pow2_ge_4_4
  have hc : (lock_free_queue.construct g 4).count = 0 := by
    rw [← w.contents_length, contents_construct g h0 h1]; rfl
  obtain ⟨bs, q1, hrun, w1⟩ := WellFormed.enqueue_all_total 0 [a, b, c, d] w
  have hbs := WellFormed.enqueue_all_results _ _ w hrun
  rw [hc, hsz] at hbs
  have hbs1 : bs = [true, true, true, false] := by rw [hbs]; rfl
  subst hbs1
  obtain ⟨hq1, hs1⟩ := History.enqueue_all _ _ hq0 hrun
  have hcon1 : q1.contents = [a, b, c] := by
    have := hq1.fifo
    simpa [accepted] using this.symm
  obtain ⟨nd, hnd⟩ := w1.head_slot
  obtain ⟨r, y, q2, hd⟩ : ∃ r y q2, q1.dequeue 1 x = .ok (r, y, q2) :=
    ⟨_, _, _, w1.dequeue_eq 0 x nd hnd⟩
  have hs2 := w1.dequeue_size hd
  have hq2 := History.dequeue 1 x r y q2 hq1 hd
  rcases w1.dequeue_result hd with ⟨_, _, _, hf⟩ | ⟨nd1, hnd1, rfl, rfl, rfl, hf⟩
  · exfalso
    have := w1.is_empty_iff.1 hf
    rw [← w1.contents_length, hcon1] at this
    simp at this
  · have hcon2 := w1.contents_dequeued hf nd1 hnd1
    rw [hcon1] at hcon2
    simp only [List.cons.injEq] at hcon2
    have w2 := hq2.wellFormed
    obtain ⟨r3, q3, he⟩ : ∃ r3 q3, (dequeued_state q1 nd1).enqueue 1 d = .ok (r3, q3) :=
      ⟨_, _, w2.enqueue_eq 0 d⟩
    refine ⟨q1, _, q3, hrun, by rw [hd, ← hcon2.1], ?_⟩
    rcases w2.enqueue_result he with ⟨_, _, hfull⟩ | ⟨rfl, _, _⟩
    · exfalso
      have := w2.is_full_iff.1 hfull
      rw [← w2.contents_length, ← hcon2.2, hs2, hs1, hsz] at this
      simp at this
    · exact he

/-! ## Concurrent execution: slot ownership -/

theorem status_cas_true {T : Type} {q q1 : lock_free_queue T} {i : Nat} {e d : Int}
    (h : q.status_cas i e d = .ok (true, q1)) :
    q.slot_status i = some e ∧ q1.slot_status i = some d ∧
      (∀ j, j ≠ i → q1.slot_status j = q.slot_status j) ∧
      q1._head = q._head ∧ q1._tail = q._tail := by
  unfold lock_free_queue.status_cas at h
  cases hi : q._items[i]? with
  | none => rw [hi] at h; simp at h
  | some nd =>
    rw [hi] at h
    simp only at h
    have hl : i < q._items.length := by
      obtain ⟨h1, _⟩ := List.getElem?_eq_some.1 hi
      exact h1
    by_cases hs : nd.status = e
    · rw [if_pos hs] at h
      simp only [Except.ok.injEq, Prod.mk.injEq, true_and] at h
      subst h
      refine ⟨?_, ?_, ?_, rfl, rfl⟩
      · simp [lock_free_queue.slot_status, hi, hs]
      · simp [lock_free_queue.slot_status, List.getElem?_set_self hl]
      · intro j hj
        simp [lock_free_queue.slot_status, List.getElem?_set_ne (Ne.symm hj)]
    · rw [if_neg hs] at h
      simp at h

theorem status_cas_false {T : Type} {q q1 : lock_free_queue T} {i : Nat} {e d : Int}
    (h : q.status_cas i e d = .ok (false, q1)) : q1 = q := by
  unfold lock_free_queue.status_cas at h
  cases hi : q._items[i]? with
  | none => rw [hi] at h; simp at h
  | some nd =>
    rw [hi] at h
    simp only at h
    by_cases hs : nd.status = e
    · rw [if_pos hs] at h
      simp at h
    · rw [if_neg hs] at h
      simp only [Except.ok.injEq, Prod.mk.injEq, true_and] at h
      exact h.symm

theorem store_value_status {T : Type} {q q1 : lock_free_queue T} {i : Nat} {v : T}
    (h : q.store_value i v = .ok q1) (j : Nat) : q1.slot_status j = q.slot_status j := by
  unfold lock_free_queue.store_value at h
  cases hi : q._items[i]? with
  | none => rw [hi] at h; simp at h
  | some nd =>
    rw [hi] at h
    simp only [Except.ok.injEq] at h
    subst h
    have hl : i < q._items.length := by
      obtain ⟨h1, _⟩ := List.getElem?_eq_some.1 hi
      exact h1
    by_cases hj : i = j
    · subst hj
      simp [lock_free_queue.slot_status, List.getElem?_set_self hl, hi]
    · simp [lock_free_queue.slot_status, List.getElem?_set_ne hj]

theorem tail_cas_status {T : Type} (q : lock_free_queue T) (a b j : Nat) :
    (q.tail_cas a b).2.slot_status j = q.slot_status j := by
  unfold lock_free_queue.tail_cas
  split <;> rfl

theorem head_cas_status {T : Type} (q : lock_free_queue T) (a b j : Nat) :
    (q.head_cas a b).2.slot_status j = q.slot_status j := by
  unfold lock_free_queue.head_cas
  split <;> rfl

/-- The three shapes of a step of a thread, seen from the slot status tags: a quiet step
changes no tag and claims nothing; a claim turns one `empty` or `valid` tag into the tag
the thread then holds the slot under; a release changes only the tag of the slot the thread
was holding. -/
theorem thread_step_shape {T : Type} {q q1 : lock_free_queue T} {l l1 : Local T}
    {a : Action T} {ev : Event T} (h : thread_step q l a = some (q1, l1, ev)) :
    ((∀ j, q1.slot_status j = q.slot_status j) ∧
        (l1.holding = none ∨ l1.holding = l.holding)) ∨
      (∃ j tag, l1.holding = some (j, tag) ∧
        (q.slot_status j = some empty ∨ q.slot_status j = some valid) ∧
        q1.slot_status j = some tag ∧ ∀ k, k ≠ j → q1.slot_status k = q.slot_status k) ∨
      (∃ j tag, l.holding = some (j, tag) ∧ l1.holding = none ∧
        ∀ k, k ≠ j → q1.slot_status k = q.slot_status k) := by
  obtain ⟨pc, t, hd, el⟩ := l
  cases pc <;> cases a <;> simp only [thread_step] at h
  all_goals first
    | (cases h; done)
    | (simp only [Option.some.injEq, Prod.mk.injEq] at h
       obtain ⟨rfl, rfl, rfl⟩ := h
       refine Or.inl ⟨fun _ => rfl, ?_⟩
       simp [Local.holding])
    | (split at h <;>
        (simp only [Option.some.injEq, Prod.mk.injEq] at h
         obtain ⟨rfl, rfl, rfl⟩ := h
         refine Or.inl ⟨fun _ => rfl, ?_⟩
         simp [Local.holding]))
    | skip
  case mk.enq_claim.step =>
    cases hc : q.status_cas t empty writing with
    | error e =>
      rw [hc] at h
      simp only [Option.some.injEq, Prod.mk.injEq] at h
      obtain ⟨rfl, rfl, rfl⟩ := h
      exact Or.inl ⟨fun _ => rfl, Or.inr rfl⟩
    | ok r =>
      obtain ⟨b, q2⟩ := r
      rw [hc] at h
      cases b
      · simp only [Option.some.injEq, Prod.mk.injEq] at h
        obtain ⟨rfl, rfl, rfl⟩ := h
        rw [status_cas_false hc]
        exact Or.inl ⟨fun _ => rfl, Or.inl rfl⟩
      · simp only [Option.some.injEq, Prod.mk.injEq] at h
        obtain ⟨rfl, rfl, rfl⟩ := h
        obtain ⟨h1, h2, h3, _⟩ := status_cas_true hc
        exact Or.inr (Or.inl ⟨t, writing, rfl, Or.inl h1, h2, h3⟩)
  case mk.enq_abort.step =>
    cases hc : q.status_cas t writing empty with
    | error e =>
      rw [hc] at h
      simp only [Option.some.injEq, Prod.mk.injEq] at h
      obtain ⟨rfl, rfl, rfl⟩ := h
      exact Or.inl ⟨fun _ => rfl, Or.inr rfl⟩
    | ok r =>
      obtain ⟨b, q2⟩ := r
      rw [hc] at h
      cases b
      · simp only [Option.some.injEq, Prod.mk.injEq] at h
        obtain ⟨rfl, rfl, rfl⟩ := h
        exact Or.inl ⟨fun _ => rfl, Or.inr rfl⟩
      · simp only [Option.some.injEq, Prod.mk.injEq] at h
        obtain ⟨rfl, rfl, rfl⟩ := h
        obtain ⟨_, _, h3, _⟩ := status_cas_true hc
        exact Or.inr (Or.inr ⟨t, writing, rfl, rfl, h3⟩)
  case mk.enq_store.step =>
    cases hc : q.store_value t el with
    | error e =>
      rw [hc] at h
      simp only [Option.some.injEq, Prod.mk.injEq] at h
      obtain ⟨rfl, rfl, rfl⟩ := h
      exact Or.inl ⟨fun _ => rfl, Or.inr rfl⟩
    | ok q2 =>
      rw [hc] at h
      simp only [Option.some.injEq, Prod.mk.injEq] at h
      obtain ⟨rfl, rfl, rfl⟩ := h
      exact Or.inl ⟨store_value_status hc, Or.inr rfl⟩
  case mk.enq_commit.step =>
    cases hc : q.status_cas t writing valid with
    | error e =>
      rw [hc] at h
      simp only [Option.some.injEq, Prod.mk.injEq] at h
      obtain ⟨rfl, rfl, rfl⟩ := h
      exact Or.inl ⟨fun _ => rfl, Or.inr rfl⟩
    | ok r =>
      obtain ⟨b, q2⟩ := r
      rw [hc] at h
      cases b
      · simp only [Option.some.injEq, Prod.mk.injEq] at h
        obtain ⟨rfl, rfl, rfl⟩ := h
        exact Or.inl ⟨fun _ => rfl, Or.inr rfl⟩
      · simp only [Option.some.injEq, Prod.mk.injEq] at h
        obtain ⟨rfl, rfl, rfl⟩ := h
        obtain ⟨_, _, h3, _⟩ := status_cas_true hc
        exact Or.inr (Or.inr ⟨t, writing, rfl, rfl, h3⟩)
  case mk.enq_advance.step =>
    cases hc : q.tail_cas t (q.get_index (t + 1)) with
    | mk b q2 =>
      have hst := tail_cas_status q t (q.get_index (t + 1))
      rw [hc] at h hst
      cases b
      · simp only [Option.some.injEq, Prod.mk.injEq] at h
        obtain ⟨rfl, rfl, rfl⟩ := h
        exact Or.inl ⟨fun _ => rfl, Or.inr rfl⟩
      · simp only [Option.some.injEq, Prod.mk.injEq] at h
        obtain ⟨rfl, rfl, rfl⟩ := h
        exact Or.inl ⟨hst, Or.inl rfl⟩
  case mk.deq_claim.step =>
    cases hc : q.status_cas hd valid reading with
    | error e =>
      rw [hc] at h
      simp only [Option.some.injEq, Prod.mk.injEq] at h
      obtain ⟨rfl, rfl, rfl⟩ := h
      exact Or.inl ⟨fun _ => rfl, Or.inr rfl⟩
    | ok r =>
      obtain ⟨b, q2⟩ := r
      rw [hc] at h
      cases b
      · simp only [Option.some.injEq, Prod.mk.injEq] at h
        obtain ⟨rfl, rfl, rfl⟩ := h
        rw [status_cas_false hc]
        exact Or.inl ⟨fun _ => rfl, Or.inl rfl⟩
      · simp only [Option.some.injEq, Prod.mk.injEq] at h
        obtain ⟨rfl, rfl, rfl⟩ := h
        obtain ⟨h1, h2, h3, _⟩ := status_cas_true hc
        exact Or.inr (Or.inl ⟨hd, reading, rfl, Or.inr h1, h2, h3⟩)
  case mk.deq_abort.step =>
    cases hc : q.status_cas hd reading valid with
    | error e =>
      rw [hc] at h
      simp only [Option.some.injEq, Prod.mk.injEq] at h
      obtain ⟨rfl, rfl, rfl⟩ := h
      exact Or.inl ⟨fun _ => rfl, Or.inr rfl⟩
    | ok r =>
      obtain ⟨b, q2⟩ := r
      rw [hc] at h
      cases b
      · simp only [Option.some.injEq, Prod.mk.injEq] at h
        obtain ⟨rfl, rfl, rfl⟩ := h
        exact Or.inl ⟨fun _ => rfl, Or.inr rfl⟩
      · simp only [Option.some.injEq, Prod.mk.injEq] at h
        obtain ⟨rfl, rfl, rfl⟩ := h
        obtain ⟨_, _, h3, _⟩ := status_cas_true hc
        exact Or.inr (Or.inr ⟨hd, reading, rfl, rfl, h3⟩)
  case mk.deq_commit.step =>
    cases hc : q.status_cas hd reading empty with
    | error e =>
      rw [hc] at h
      simp only [Option.some.injEq, Prod.mk.injEq] at h
      obtain ⟨rfl, rfl, rfl⟩ := h
      exact Or.inl ⟨fun _ => rfl, Or.inr rfl⟩
    | ok r =>
      obtain ⟨b, q2⟩ := r
      rw [hc] at h
      cases b
      · simp only [Option.some.injEq, Prod.mk.injEq] at h
        obtain ⟨rfl, rfl, rfl⟩ := h
        exact Or.inl ⟨fun _ => rfl, Or.inr rfl⟩
      · simp only [Option.some.injEq, Prod.mk.injEq] at h
        obtain ⟨rfl, rfl, rfl⟩ := h
        obtain ⟨_, _, h3, _⟩ := status_cas_true hc
        exact Or.inr (Or.inr ⟨hd, reading, rfl, rfl, h3⟩)
  case mk.deq_advance.step =>
    cases hc : q.head_cas hd (q.get_index (hd + 1)) with
    | mk b q2 =>
      have hst := head_cas_status q hd (q.get_index (hd + 1))
      rw [hc] at h hst
      cases b
      · simp only [Option.some.injEq, Prod.mk.injEq] at h
        obtain ⟨rfl, rfl, rfl⟩ := h
        exact Or.inl ⟨fun _ => rfl, Or.inr rfl⟩
      · simp only [Option.some.injEq, Prod.mk.injEq] at h
        obtain ⟨rfl, rfl, rfl⟩ := h
        exact Or.inl ⟨hst, Or.inl rfl⟩

theorem holding_tag {T : Type} {l : Local T} {j : Nat} {tag : Int}
    (h : l.holding = some (j, tag)) : tag = writing ∨ tag = reading := by
  unfold Local.holding at h
  split at h
  all_goals first
    | (simp only [Option.some.injEq, Prod.mk.injEq] at h; exact Or.inl h.2.symm)
    | (simp only [Option.some.injEq, Prod.mk.injEq] at h; exact Or.inr h.2.symm)
    | cases h

theorem record_queue {T : Type} (s : System T) (ev : Event T) :
    (s.record ev).queue = s.queue := by
  cases ev <;> rfl

theorem record_threads {T : Type} (s : System T) (ev : Event T) :
    (s.record ev).threads = s.threads := by
  cases ev <;> rfl

/-- What a step of the process is made of. -/
theorem step_inv {T : Type} {s s1 : System T} {i : Nat} {a : Action T}
    (h : s.step i a = some s1) :
    ∃ l q1 l1 ev, s.threads[i]? = some l ∧ thread_step s.queue l a = some (q1, l1, ev) ∧
      s1.queue = q1 ∧ s1.threads = s.threads.set i l1 := by
  unfold System.step at h
  split at h
  · cases h
  · cases hl : s.threads[i]? with
    | none => rw [hl] at h; cases h
    | some l =>
      rw [hl] at h
      simp only at h
      cases ht : thread_step s.queue l a with
      | none => rw [ht] at h; cases h
      | some r =>
        obtain ⟨q1, l1, ev⟩ := r
        rw [ht] at h
        simp only [Option.some.injEq] at h
        subst h
        exact ⟨l, q1, l1, ev, rfl, ht, by rw [record_queue], by rw [record_threads]⟩

theorem tags_distinct : (writing ≠ empty ∧ writing ≠ valid) ∧ (reading ≠ empty ∧ reading ≠ valid) := by
  decide

/-- Every step preserves the ownership invariant. -/
theorem owned_step {T : Type} {s s1 : System T} {i : Nat} {a : Action T}
    (hs : s.owned) (h : s.step i a = some s1) : s1.owned := by
  obtain ⟨l, q1, l1, ev, hl, ht, hq, hth⟩ := step_inv h
  obtain ⟨inv1, inv2⟩ := hs
  have hil : i < s.threads.length := by
    obtain ⟨h1, _⟩ := List.getElem?_eq_some.1 hl
    exact h1
  have hget : ∀ a, s1.threads[a]? = if i = a then some l1 else s.threads[a]? := by
    intro a
    rw [hth, List.getElem?_set]
    by_cases hia : i = a
    · rw [if_pos hia, if_pos hia, if_pos hil]
    · rw [if_neg hia, if_neg hia]
  have clash : ∀ {j : Nat} {tag : Int}, (tag = writing ∨ tag = reading) →
      s.queue.slot_status j = some tag →
      (s.queue.slot_status j = some empty ∨ s.queue.slot_status j = some valid) → False := by
    intro j tag ht hs he
    rw [hs] at he
    obtain ⟨⟨a1, a2⟩, ⟨b1, b2⟩⟩ := tags_distinct
    rcases ht with rfl | rfl <;> rcases he with he | he <;>
      simp only [Option.some.injEq] at he <;> contradiction
  rcases thread_step_shape ht with ⟨hsame, hhold⟩ | ⟨j, tag, hnew, hfree, hst, hoth⟩ |
    ⟨j, tag, hold, hnone, hoth⟩
  · -- quiet step
    have keep : ∀ {j : Nat} {tag : Int},
        l1.holding = some (j, tag) → l.holding = some (j, tag) := by
      intro j tag h1
      rcases hhold with h0 | h0
      · rw [h0] at h1; cases h1
      · rw [← h0]; exact h1
    constructor
    · intro a la j tag ha hla
      rw [hq, hsame]
      rw [hget] at ha
      by_cases hia : i = a
      · rw [if_pos hia] at ha
        cases ha
        exact inv1 i l j tag hl (keep hla)
      · rw [if_neg hia] at ha
        exact inv1 a la j tag ha hla
    · intro a b la lb j ta tb ha hb hla hlb
      rw [hget] at ha hb
      by_cases hia : i = a <;> by_cases hib : i = b
      · rw [← hia, ← hib]
      · rw [if_pos hia] at ha; rw [if_neg hib] at hb
        cases ha
        rw [← hia]
        exact inv2 i b l lb j ta tb hl hb (keep hla) hlb
      · rw [if_neg hia] at ha; rw [if_pos hib] at hb
        cases hb
        rw [← hib]
        exact inv2 a i la l j ta tb ha hl hla (keep hlb)
      · rw [if_neg hia] at ha; rw [if_neg hib] at hb
        exact inv2 a b la lb j ta tb ha hb hla hlb
  · -- claim of slot j
    have other : ∀ {b : Nat} {lb : Local T} {k : Nat} {tb : Int},
        s.threads[b]? = some lb → lb.holding = some (k, tb) → k ≠ j := by
      intro b lb k tb hb hlb hk
      subst hk
      exact clash (holding_tag hlb) (inv1 b lb k tb hb hlb) hfree
    constructor
    · intro a la k tk ha hla
      rw [hq]
      rw [hget] at ha
      by_cases hia : i = a
      · rw [if_pos hia] at ha
        cases ha
        rw [hnew] at hla
        simp only [Option.some.injEq, Prod.mk.injEq] at hla
        rw [← hla.1, ← hla.2]
        exact hst
      · rw [if_neg hia] at ha
        rw [hoth k (other ha hla)]
        exact inv1 a la k tk ha hla
    · intro a b la lb k ta tb ha hb hla hlb
      rw [hget] at ha hb
      by_cases hia : i = a <;> by_cases hib : i = b
      · rw [← hia, ← hib]
      · rw [if_pos hia] at ha; rw [if_neg hib] at hb
        cases ha
        rw [hnew] at hla
        simp only [Option.some.injEq, Prod.mk.injEq] at hla
        exact absurd hla.1.symm (other hb hlb)
      · rw [if_neg hia] at ha; rw [if_pos hib] at hb
        cases hb
        rw [hnew] at hlb
        simp only [Option.some.injEq, Prod.mk.injEq] at hlb
        exact absurd hlb.1.symm (other ha hla)
      · rw [if_neg hia] at ha; rw [if_neg hib] at hb
        exact inv2 a b la lb k ta tb ha hb hla hlb
  · -- release of slot j
    constructor
    · intro a la k tk ha hla
      rw [hq]
      rw [hget] at ha
      by_cases hia : i = a
      · rw [if_pos hia] at ha
        cases ha
        rw [hnone] at hla
        cases hla
      · rw [if_neg hia] at ha
        have hk : k ≠ j := by
          rintro rfl
          exact hia (inv2 i a l la k tag tk hl ha hold hla)
        rw [hoth k hk]
        exact inv1 a la k tk ha hla
    · intro a b la lb k ta tb ha hb hla hlb
      rw [hget] at ha hb
      by_cases hia : i = a
      · rw [if_pos hia] at ha
        cases ha
        rw [hnone] at hla
        cases hla
      · by_cases hib : i = b
        · rw [if_pos hib] at hb
          cases hb
          rw [hnone] at hlb
          cases hlb
        · rw [if_neg hia] at ha; rw [if_neg hib] at hb
          exact inv2 a b la lb k ta tb ha hb hla hlb

theorem owned_start {T : Type} (q : lock_free_queue T) (n : Nat) (x : T) :
    (System.start q n x).owned := by
  have hidle : ∀ (a : Nat) (la : Local T), (System.start q n x).threads[a]? = some la →
      la.holding = none := by
    intro a la ha
    unfold System.start at ha
    simp only [List.getElem?_replicate] at ha
    split at ha
    · cases ha
      rfl
    · cases ha
  constructor
  · intro a la j tag ha hla
    rw [hidle a la ha] at hla
    cases hla
  · intro a b la lb j ta tb ha _ hla _
    rw [hidle a la ha] at hla
    cases hla

theorem owned_exec {T : Type} (sched : List (Nat × Action T)) :
    ∀ {s s1 : System T}, s.owned → System.exec sched s = some s1 → s1.owned := by
  induction sched with
  | nil =>
    intro s s1 hs h
    simp only [System.exec, Option.some.injEq] at h
    rw [← h]
    exact hs
  | cons p rest ih =>
    intro s s1 hs h
    obtain ⟨i, a⟩ := p
    unfold System.exec at h
    cases hstep : s.step i a with
    | none => rw [hstep] at h; cases h
    | some s2 =>
      rw [hstep] at h
      exact ih (owned_step hs hstep) h

/-- C8: in every interleaving of any number of threads running `enqueue` and `dequeue`,
started from any queue with all threads idle, no slot is held by two threads at once:
for every slot at most one thread is between its successful claim (`empty -> writing` or
`valid -> reading`) and its release of that slot, and while a thread holds a slot the
slot's status is the tag the thread set.  So the payload of a slot is never accessed by
two threads at once. -/
theorem C8_slot_exclusivity {T : Type} (q0 : lock_free_queue T) (n : Nat) (x : T)
    (sched : List (Nat × Action T)) (s : System T)
    (hrun : System.exec sched (System.start q0 n x) = some s) :
    (∀ (slot a b : Nat) (la lb : Local T) (ta tb : Int), s.threads[a]? = some la →
        s.threads[b]? = some lb → la.holding = some (slot, ta) →
        lb.holding = some (slot, tb) → a = b) ∧
      (∀ (slot a : Nat) (la : Local T) (tag : Int), s.threads[a]? = some la →
        la.holding = some (slot, tag) → s.queue.slot_status slot = some tag) := by
  obtain ⟨inv1, inv2⟩ := owned_exec sched (owned_start q0 n x) hrun
  exact ⟨fun slot a b la lb ta tb ha hb hla hlb => inv2 a b la lb slot ta tb ha hb hla hlb,
    fun slot a la tag ha hla => inv1 a la slot tag ha hla⟩

theorem C8_slot_exclusivity_witness :
    ∃ s, System.exec contended_schedule
        (System.start (lock_free_queue.construct (fun _ => 0) 2) 2 0) = some s ∧
      (s.threads.map (fun l => l.holding) = [some (0, writing), none]) ∧
      (∀ (slot a b : Nat) (la lb : Local Int) (ta tb : Int), s.threads[a]? = some la →
        s.threads[b]? = some lb → la.holding = some (slot, ta) →
        lb.holding = some (slot, tb) → a = b) ∧
      (∀ (slot a : Nat) (la : Local Int) (tag : Int), s.threads[a]? = some la →
        la.holding = some (slot, tag) → s.queue.slot_status slot = some tag) := by
  have hd : (System.exec contended_schedule
      (System.start (lock_free_queue.construct (fun _ => 0) 2) 2 0)).map
        (fun s => s.threads.map (fun l => l.holding)) = some [some (0, writing), none] := by
    decide
  cases h : System.exec contended_schedule
      (System.start (lock_free_queue.construct (fun _ => 0) 2) 2 0) with
  | none => rw [h] at hd; cases hd
  | some s =>
    rw [h] at hd
    simp only [Option.map_some', Option.some.injEq] at hd
    exact ⟨s, rfl, hd, C8_slot_exclusivity _ _ _ _ _ h⟩

/-- C2 (the code loses items): two schedules in which every call returns, no assertion
fails, the queue ends up reporting empty, and values whose `enqueue` returned true were
never dequeued.  Requested size 2, threads 0 and 1 producing and thread 2 consuming: the
calls `enqueue(10)`, `enqueue(30)`, `enqueue(20)` returned true, one `dequeue` returned
true with 10, all threads are idle, `is_empty()` is true, and both slots are still
`valid`.  Requested size 8 (the benchmark's queue): nine calls of `enqueue` returned true,
one `dequeue` returned true, `is_empty()` is true and all eight slots are `valid`. -/
theorem C2_enqueued_values_stranded :
    ((System.exec stranding_schedule
        (System.start (lock_free_queue.construct (fun _ => 0) 2) 3 0)).map System.observe =
      some ⟨[10, 30, 20], [10], true, none, [.idle, .idle, .idle]⟩) ∧
    ((System.exec stranding_schedule
        (System.start (lock_free_queue.construct (fun _ => 0) 2) 3 0)).map
        (fun s => s.queue.stored) = some 2) ∧
    ((System.exec stranding_schedule_8
        (System.start (lock_free_queue.construct (fun _ => 0) 8) 3 0)).map System.observe =
      some ⟨[100, 101, 102, 103, 104, 105, 106, 107, 0], [100], true, none,
        [.idle, .idle, .idle]⟩) ∧
    ((System.exec stranding_schedule_8
        (System.start (lock_free_queue.construct (fun _ => 0) 8) 3 0)).map
        (fun s => s.queue.stored) = some 8) := by
  refine ⟨by decide, by decide, by decide, by decide⟩

/-! ## Stored cursors -/

theorem status_cas_hit {T : Type} {q : lock_free_queue T} {i : Nat} {nd : node T}
    (hnd : q._items[i]? = some nd) (e d : Int) (hs : nd.status = e) :
    q.status_cas i e d =
      .ok (true, { q with _items := q._items.set i { nd with status := d } }) := by
  unfold lock_free_queue.status_cas
  rw [hnd]
  simp only
  rw [if_pos hs]

theorem store_value_hit {T : Type} {q : lock_free_queue T} {i : Nat} {nd : node T}
    (hnd : q._items[i]? = some nd) (v : T) :
    q.store_value i v =
      .ok { q with _items := q._items.set i { nd with value := v } } := by
  unfold lock_free_queue.store_value
  rw [hnd]

theorem load_value_hit {T : Type} {q : lock_free_queue T} {i : Nat} {nd : node T}
    (hnd : q._items[i]? = some nd) : q.load_value i = .ok nd.value := by
  unfold lock_free_queue.load_value
  rw [hnd]

theorem WellFormed.tail_slot {T : Type} {q : lock_free_queue T} (w : WellFormed q) :
    ∃ nd, q._items[q._tail]? = some nd ∧ nd.status = empty := by
  have hl : q._tail < q._items.length := by rw [w.length_items]; exact w.tail_lt
  exact ⟨q._items[q._tail], List.getElem?_eq_getElem hl,
    w.status_empty _ _ (List.getElem?_eq_getElem hl) w.tail_free⟩

theorem WellFormed.get_index_self {T : Type} {q : lock_free_queue T} (w : WellFormed q)
    {x : Nat} (hx : x < q._size) : q.get_index x = x := by
  rw [w.get_index_mod, Nat.mod_eq_of_lt hx]

/-- The queue of requested size 2 after `enqueue(10)`. -/
theorem history_two_one_enqueued :
    History (enqueued_state (lock_free_queue.construct (fun _ => (0 : Int)) 2) 10) [10] [] :=
  History.enqueue 1 10 true _ (History.fresh (fun _ => (0 : Int)) 2 (by decide) (by decide))
    (by rfl)

/-- The queue of requested size 2 after `enqueue(10)` and `dequeue`: both cursors are 1. -/
theorem history_two_drained :
    History (dequeued_state (enqueued_state (lock_free_queue.construct (fun _ => (0 : Int)) 2) 10)
      { status := valid, value := 10 }) [10] [10] :=
  History.dequeue 1 0 true 10 _ history_two_one_enqueued (by rfl)

/-- C11, as stated, fails: on the queue of requested size 2, after one `enqueue` and one
`dequeue` the stored tail is 1, and the next successful `enqueue` stores 0, not 2: the
stored cursor is the masked value, it never exceeds the capacity. -/
theorem C11_stored_tail_wraps :
    ∃ q q1 : lock_free_queue Int, History q [10] [10] ∧ q._tail = 1 ∧
      q.enqueue 1 11 = .ok (true, q1) ∧ q1._tail = 0 ∧
      q1._tail ≠ (q._tail + 1) % 2 ^ 32 :=
  ⟨_, enqueued_state (dequeued_state (enqueued_state
      (lock_free_queue.construct (fun _ => (0 : Int)) 2) 10) { status := valid, value := 10 }) 11,
    history_two_drained, by decide, by rfl, by decide, by decide⟩

/-- C11, amended: in single-threaded use the stored cursors are always smaller than the
capacity, so each is its own masked form and selects a slot as it is; every successful
`enqueue` sets the stored tail to `get_index(tail + 1)`, that is to `tail + 1` modulo the
capacity, and leaves the head; every successful `dequeue` does the same to the stored
head and leaves the tail. -/
theorem C11_cursors_stored_masked {T : Type} (q : lock_free_queue T) (ens des : List T)
    (hq : History q ens des) :
    q._head < q._size ∧ q._tail < q._size ∧
      q.get_index q._head = q._head ∧ q.get_index q._tail = q._tail ∧
      (∀ (fuel : Nat) (v : T) (q1 : lock_free_queue T), q.enqueue fuel v = .ok (true, q1) →
        q1._tail = q.get_index (q._tail + 1) ∧ q1._tail = (q._tail + 1) % q._size ∧
        q1._head = q._head) ∧
      (∀ (fuel : Nat) (x y : T) (q1 : lock_free_queue T),
        q.dequeue fuel x = .ok (true, y, q1) →
        q1._head = q.get_index (q._head + 1) ∧ q1._head = (q._head + 1) % q._size ∧
        q1._tail = q._tail) := by
  have w := hq.wellFormed
  refine ⟨w.head_lt, w.tail_lt, w.get_index_self w.head_lt, w.get_index_self w.tail_lt, ?_, ?_⟩
  · intro fuel v q1 h
    rcases w.enqueue_result h with ⟨hb, _, _⟩ | ⟨_, rfl, _⟩
    · cases hb
    · exact ⟨rfl, w.get_index_mod _, rfl⟩
  · intro fuel x y q1 h
    rcases w.dequeue_result h with ⟨hb, _, _, _⟩ | ⟨nd, _, _, _, rfl, _⟩
    · cases hb
    · exact ⟨rfl, w.get_index_mod _, rfl⟩

theorem C11_cursors_stored_masked_witness :
    ∃ q : lock_free_queue Int, History q [10] [10] ∧ q._tail = 1 ∧ q._size = 2 ∧
      (q._head < q._size ∧ q._tail < q._size ∧
        q.get_index q._head = q._head ∧ q.get_index q._tail = q._tail ∧
        (∀ (fuel : Nat) (v : Int) (q1 : lock_free_queue Int),
          q.enqueue fuel v = .ok (true, q1) →
          q1._tail = q.get_index (q._tail + 1) ∧ q1._tail = (q._tail + 1) % q._size ∧
          q1._head = q._head) ∧
        (∀ (fuel : Nat) (x y : Int) (q1 : lock_free_queue Int),
          q.dequeue fuel x = .ok (true, y, q1) →
          q1._head = q.get_index (q._head + 1) ∧ q1._head = (q._head + 1) % q._size ∧
          q1._tail = q._tail)) :=
  ⟨_, history_two_drained, by decide, by decide,
    C11_cursors_stored_masked _ [10] [10] history_two_drained⟩

/-! ## Bounds of the slot accesses -/

/-- C12: in every state reached from a queue constructed with requested size between 1
and `2^30` by a sequence of `enqueue` and `dequeue` calls, the slot array has `_size`
cells and the stored `_head` and `_tail` are smaller than `_size`; so `_items[tail]` and
`_items[head]`, which the calls index with the loaded cursor as it is, exist, and no call
ever accesses a slot outside the array. -/
theorem C12_cursors_in_bounds {T : Type} (q : lock_free_queue T) (ens des : List T)
    (hq : History q ens des) :
    q._items.length = q._size ∧ q._head < q._size ∧ q._tail < q._size ∧
      (∃ nd, q._items[q._tail]? = some nd) ∧ (∃ nd, q._items[q._head]? = some nd) ∧
      (∀ (fuel : Nat) (v : T), q.enqueue fuel v ≠ .error .out_of_bounds) ∧
      (∀ (fuel : Nat) (x : T), q.dequeue fuel x ≠ .error .out_of_bounds) := by
  have w := hq.wellFormed
  obtain ⟨nt, hnt, _⟩ := w.tail_slot
  obtain ⟨nh, hnh⟩ := w.head_slot
  refine ⟨w.length_items, w.head_lt, w.tail_lt, ⟨nt, hnt⟩, ⟨nh, hnh⟩, ?_, ?_⟩
  · intro fuel v
    cases fuel with
    | zero => simp [lock_free_queue.enqueue]
    | succ fuel => rw [w.enqueue_eq]; simp
  · intro fuel x
    cases fuel with
    | zero => simp [lock_free_queue.dequeue]
    | succ fuel => rw [w.dequeue_eq fuel x nh hnh]; simp

theorem C12_cursors_in_bounds_witness :
    ∃ q : lock_free_queue Int, History q [10] [10] ∧ q._head = 1 ∧ q._tail = 1 ∧
      (q._items.length = q._size ∧ q._head < q._size ∧ q._tail < q._size ∧
        (∃ nd, q._items[q._tail]? = some nd) ∧ (∃ nd, q._items[q._head]? = some nd) ∧
        (∀ (fuel : Nat) (v : Int), q.enqueue fuel v ≠ .error .out_of_bounds) ∧
        (∀ (fuel : Nat) (x : Int), q.dequeue fuel x ≠ .error .out_of_bounds)) :=
  ⟨_, history_two_drained, by decide, by decide,
    C12_cursors_in_bounds _ [10] [10] history_two_drained⟩

/-! ## Frame of a successful call -/

/-- C13: in single-threaded use a successful `enqueue(v)` changes only the slot at the old
tail index, which was `empty` and becomes `valid` with value `v`, and `_tail`, which
becomes `get_index(tail + 1)`; `_head`, the capacity fields and every other slot are
unchanged.  A successful `dequeue` delivers the value of the slot at the old head index
and changes only the status of that slot, from `valid` to `empty`, and `_head`, which
becomes `get_index(head + 1)`; `_tail`, the capacity fields, every other slot and every
stored value are unchanged. -/
theorem C13_frame {T : Type} (q : lock_free_queue T) (ens des : List T)
    (hq : History q ens des) :
    (∀ (fuel : Nat) (v : T) (q1 : lock_free_queue T), q.enqueue fuel v = .ok (true, q1) →
        (∃ nd, q._items[q._tail]? = some nd ∧ nd.status = empty) ∧
        q1._items[q._tail]? = some { status := valid, value := v } ∧
        (∀ i : Nat, i ≠ q._tail → q1._items[i]? = q._items[i]?) ∧
        q1._items.length = q._items.length ∧
        q1._tail = q.get_index (q._tail + 1) ∧ q1._head = q._head ∧
        q1._size = q._size ∧ q1._sizebit = q._sizebit ∧
        q1._sizebitmask = q._sizebitmask) ∧
      (∀ (fuel : Nat) (x y : T) (q1 : lock_free_queue T),
        q.dequeue fuel x = .ok (true, y, q1) →
        (∃ nd, q._items[q._head]? = some nd ∧ nd.status = valid ∧ nd.value = y ∧
          q1._items[q._head]? = some { status := empty, value := nd.value }) ∧
        (∀ i : Nat, i ≠ q._head → q1._items[i]? = q._items[i]?) ∧
        (∀ i : Nat, (q1._items[i]?).map (fun nd => nd.value) =
          (q._items[i]?).map (fun nd => nd.value)) ∧
        q1._items.length = q._items.length ∧
        q1._head = q.get_index (q._head + 1) ∧ q1._tail = q._tail ∧
        q1._size = q._size ∧ q1._sizebit = q._sizebit ∧
        q1._sizebitmask = q._sizebitmask) := by
  have w := hq.wellFormed
  constructor
  · intro fuel v q1 h
    rcases w.enqueue_result h with ⟨hb, _, _⟩ | ⟨_, rfl, _⟩
    · cases hb
    · have hl : q._tail < q._items.length := by rw [w.length_items]; exact w.tail_lt
      refine ⟨w.tail_slot, ?_, ?_, ?_, rfl, rfl, rfl, rfl, rfl⟩
      · show (q._items.set q._tail _)[q._tail]? = _
        rw [List.getElem?_set_self hl]
      · intro i hi
        show (q._items.set q._tail _)[i]? = _
        rw [List.getElem?_set_ne (Ne.symm hi)]
      · show (q._items.set q._tail _).length = _
        rw [List.length_set]
  · intro fuel x y q1 h
    rcases w.dequeue_result h with ⟨hb, _, _, _⟩ | ⟨nd, hnd, _, rfl, rfl, hf⟩
    · cases hb
    · have hl : q._head < q._items.length := by rw [w.length_items]; exact w.head_lt
      have hset : (dequeued_state q nd)._items[q._head]? =
          some { status := empty, value := nd.value } := by
        show (q._items.set q._head _)[q._head]? = _
        rw [List.getElem?_set_self hl]
      have hoth : ∀ i, i ≠ q._head → (dequeued_state q nd)._items[i]? = q._items[i]? := by
        intro i hi
        show (q._items.set q._head _)[i]? = _
        rw [List.getElem?_set_ne (Ne.symm hi)]
      refine ⟨⟨nd, hnd, w.status_valid _ _ hnd (w.head_occupied hf), rfl, hset⟩, hoth, ?_, ?_,
        rfl, rfl, rfl, rfl, rfl⟩
      · intro i
        by_cases hi : i = q._head
        · subst hi
          rw [hset, hnd]
          rfl
        · rw [hoth i hi]
      · show (q._items.set q._head _).length = _
        rw [List.length_set]

theorem C13_frame_witness :
    ∃ q : lock_free_queue Int, History q [7] [] ∧ q.contents = [7] ∧
      ((∀ (fuel : Nat) (v : Int) (q1 : lock_free_queue Int),
          q.enqueue fuel v = .ok (true, q1) →
          (∃ nd, q._items[q._tail]? = some nd ∧ nd.status = empty) ∧
          q1._items[q._tail]? = some { status := valid, value := v } ∧
          (∀ i : Nat, i ≠ q._tail → q1._items[i]? = q._items[i]?) ∧
          q1._items.length = q._items.length ∧
          q1._tail = q.get_index (q._tail + 1) ∧ q1._head = q._head ∧
          q1._size = q._size ∧ q1._sizebit = q._sizebit ∧
          q1._sizebitmask = q._sizebitmask) ∧
        (∀ (fuel : Nat) (x y : Int) (q1 : lock_free_queue Int),
          q.dequeue fuel x = .ok (true, y, q1) →
          (∃ nd, q._items[q._head]? = some nd ∧ nd.status = valid ∧ nd.value = y ∧
            q1._items[q._head]? = some { status := empty, value := nd.value }) ∧
          (∀ i : Nat, i ≠ q._head → q1._items[i]? = q._items[i]?) ∧
          (∀ i : Nat, (q1._items[i]?).map (fun nd => nd.value) =
            (q._items[i]?).map (fun nd => nd.value)) ∧
          q1._items.length = q._items.length ∧
          q1._head = q.get_index (q._head + 1) ∧ q1._tail = q._tail ∧
          q1._size = q._size ∧ q1._sizebit = q._sizebit ∧
          q1._sizebitmask = q._sizebitmask)) :=
  ⟨enqueued_state (lock_free_queue.construct (fun _ => (0 : Int)) 5) 7,
    History.enqueue 1 7 true _ (History.fresh (fun _ => (0 : Int)) 5 (by decide) (by decide))
      (by rfl),
    by decide,
    C13_frame _ [7] [] (History.enqueue 1 7 true _
      (History.fresh (fun _ => (0 : Int)) 5 (by decide) (by decide)) (by rfl))⟩

/-! ## Termination without retry -/

theorem status_cas_wins {T : Type} {q : lock_free_queue T} {i : Nat} {nd : node T}
    (hnd : q._items[i]? = some nd) (e d : Int) (hs : nd.status = e) :
    ∃ q1, q.status_cas i e d = .ok (true, q1) ∧
      q1._items[i]? = some { nd with status := d } ∧
      q1._tail = q._tail ∧ q1._head = q._head := by
  refine ⟨_, status_cas_hit hnd e d hs, ?_, rfl, rfl⟩
  exact List.getElem?_set_self (lt_length_of_getElem? hnd)

theorem store_value_done {T : Type} {q : lock_free_queue T} {i : Nat} {nd : node T}
    (hnd : q._items[i]? = some nd) (v : T) :
    ∃ q1, q.store_value i v = .ok q1 ∧
      q1._items[i]? = some { nd with value := v } ∧
      q1._tail = q._tail ∧ q1._head = q._head := by
  refine ⟨_, store_value_hit hnd v, ?_, rfl, rfl⟩
  exact List.getElem?_set_self (lt_length_of_getElem? hnd)

/-- C14: in single-threaded use every call of `enqueue` and of `dequeue` returns from its
first pass through the loop (one unit of fuel is enough, and a retry, an abort or a failed
assertion would not return a result with it).  When the queue is not full the claim
`empty -> writing` succeeds at once, the re-check `tail == _tail.load()` passes, and the
asserted commit `writing -> valid` and advance of `_tail` succeed; when it is not empty
the same holds for `valid -> reading`, `head == _head.load()`, `reading -> empty` and the
advance of `_head`. -/
theorem C14_no_retry {T : Type} (q : lock_free_queue T) (ens des : List T)
    (hq : History q ens des) (v x : T) :
    (∃ b q1, q.enqueue 1 v = .ok (b, q1) ∧ (b = false ↔ q.is_full = true)) ∧
      (∃ b y q1, q.dequeue 1 x = .ok (b, y, q1) ∧ (b = false ↔ q.is_empty = true)) ∧
      (q.is_full = false → ∃ q1 q2 q3 q4,
        q.status_cas q._tail empty writing = .ok (true, q1) ∧ q._tail = q1._tail ∧
        q1.store_value q._tail v = .ok q2 ∧
        q2.status_cas q._tail writing valid = .ok (true, q3) ∧
        q3.tail_cas q._tail (q3.get_index (q._tail + 1)) = (true, q4) ∧
        q.enqueue 1 v = .ok (true, q4)) ∧
      (q.is_empty = false → ∃ q1 y q2 q3,
        q.status_cas q._head valid reading = .ok (true, q1) ∧ q._head = q1._head ∧
        q1.load_value q._head = .ok y ∧
        q1.status_cas q._head reading empty = .ok (true, q2) ∧
        q2.head_cas q._head (q2.get_index (q._head + 1)) = (true, q3) ∧
        q.dequeue 1 x = .ok (true, y, q3)) := by
  have w := hq.wellFormed
  obtain ⟨nt, hnt, hst⟩ := w.tail_slot
  obtain ⟨nh, hnh⟩ := w.head_slot
  refine ⟨?_, ?_, ?_, ?_⟩
  · obtain ⟨b, q1, he⟩ : ∃ b q1, q.enqueue 1 v = .ok (b, q1) := ⟨_, _, w.enqueue_eq 0 v⟩
    rcases w.enqueue_result he with ⟨rfl, rfl, hf⟩ | ⟨rfl, rfl, hf⟩
    · exact ⟨false, _, he, by simp [hf]⟩
    · exact ⟨true, _, he, by simp [hf]⟩
  · obtain ⟨b, y, q1, he⟩ : ∃ b y q1, q.dequeue 1 x = .ok (b, y, q1) :=
      ⟨_, _, _, w.dequeue_eq 0 x nh hnh⟩
    rcases w.dequeue_result he with ⟨rfl, rfl, rfl, hf⟩ | ⟨nd1, _, rfl, rfl, rfl, hf⟩
    · exact ⟨false, _, _, he, by simp [hf]⟩
    · exact ⟨true, _, _, he, by simp [hf]⟩
  · intro hf
    obtain ⟨q1, h1, hn1, ht1, _⟩ := status_cas_wins hnt empty writing hst
    obtain ⟨q2, h2, hn2, ht2, _⟩ := store_value_done hn1 v
    obtain ⟨q3, h3, _, ht3, _⟩ := status_cas_wins hn2 writing valid rfl
    have h4 : q3.tail_cas q._tail (q3.get_index (q._tail + 1)) =
        (true, { q3 with _tail := q3.get_index (q._tail + 1) }) := by
      unfold lock_free_queue.tail_cas
      rw [if_pos (by rw [ht3, ht2, ht1])]
    refine ⟨q1, q2, q3, _, h1, ht1.symm, h2, h3, h4, ?_⟩
    unfold lock_free_queue.enqueue
    simp only [hf, Bool.false_eq_true, if_false, h1, ht1, if_true, h2, h3, h4]
  · intro hf
    have hsv : nh.status = valid := w.status_valid _ _ hnh (w.head_occupied hf)
    obtain ⟨q1, h1, hn1, _, hh1⟩ := status_cas_wins hnh valid reading hsv
    have h2 := load_value_hit hn1
    obtain ⟨q2, h3, _, _, hh2⟩ := status_cas_wins hn1 reading empty rfl
    have h4 : q2.head_cas q._head (q2.get_index (q._head + 1)) =
        (true, { q2 with _head := q2.get_index (q._head + 1) }) := by
      unfold lock_free_queue.head_cas
      rw [if_pos (by rw [hh2, hh1])]
    refine ⟨q1, _, q2, _, h1, hh1.symm, h2, h3, h4, ?_⟩
    unfold lock_free_queue.dequeue
    simp only [hf, Bool.false_eq_true, if_false, h1, hh1, if_true, h2, h3, h4]

theorem C14_no_retry_witness :
    ∃ q : lock_free_queue Int, History q [7] [] ∧ q.is_full = false ∧ q.is_empty = false ∧
      ((∃ b q1, q.enqueue 1 8 = .ok (b, q1) ∧ (b = false ↔ q.is_full = true)) ∧
        (∃ b y q1, q.dequeue 1 0 = .ok (b, y, q1) ∧ (b = false ↔ q.is_empty = true)) ∧
        (q.is_full = false → ∃ q1 q2 q3 q4,
          q.status_cas q._tail empty writing = .ok (true, q1) ∧ q._tail = q1._tail ∧
          q1.store_value q._tail 8 = .ok q2 ∧
          q2.status_cas q._tail writing valid = .ok (true, q3) ∧
          q3.tail_cas q._tail (q3.get_index (q._tail + 1)) = (true, q4) ∧
          q.enqueue 1 8 = .ok (true, q4)) ∧
        (q.is_empty = false → ∃ q1 y q2 q3,
          q.status_cas q._head valid reading = .ok (true, q1) ∧ q._head = q1._head ∧
          q1.load_value q._head = .ok y ∧
          q1.status_cas q._head reading empty = .ok (true, q2) ∧
          q2.head_cas q._head (q2.get_index (q._head + 1)) = (true, q3) ∧
          q.dequeue 1 0 = .ok (true, y, q3))) :=
  ⟨enqueued_state (lock_free_queue.construct (fun _ => (0 : Int)) 5) 7,
    History.enqueue 1 7 true _ (History.fresh (fun _ => (0 : Int)) 5 (by decide) (by decide))
      (by rfl),
    by decide, by decide,
    C14_no_retry _ [7] [] (History.enqueue 1 7 true _
      (History.fresh (fun _ => (0 : Int)) 5 (by decide) (by decide)) (by rfl)) 8 0⟩

/-! ## Concurrent execution: the asserted compare-exchanges and the abort branches -/

theorem status_cas_of_slot_status {T : Type} {q : lock_free_queue T} {i : Nat} {e : Int}
    (h : q.slot_status i = some e) (d : Int) :
    ∃ q1, q.status_cas i e d = .ok (true, q1) ∧ q1.slot_status i = some d := by
  unfold lock_free_queue.slot_status at h
  cases hnd : q._items[i]? with
  | none => rw [hnd] at h; cases h
  | some nd =>
    rw [hnd] at h
    simp only [Option.map_some', Option.some.injEq] at h
    have hl : i < q._items.length := by
      obtain ⟨h1, _⟩ := List.getElem?_eq_some.1 hnd
      exact h1
    refine ⟨{ q with _items := q._items.set i { nd with status := d } }, ?_, ?_⟩
    · unfold lock_free_queue.status_cas
      rw [hnd]
      simp only
      rw [if_pos h]
    · simp [lock_free_queue.slot_status, List.getElem?_set_self hl]

/-- What a step of a running process computes, from the step of the thread. -/
theorem step_of_thread_step {T : Type} {s : System T} {a : Nat} {l l1 : Local T}
    {q1 : lock_free_queue T} (hstop : s.stopped = none) (hl : s.threads[a]? = some l)
    (ht : thread_step s.queue l .step = some (q1, l1, .silent)) :
    s.step a .step = some { s with queue := q1, threads := s.threads.set a l1 } := by
  unfold System.step
  rw [hstop, hl]
  simp only [Option.isSome_none, Bool.false_eq_true, if_false]
  rw [ht]
  rfl

/-- The asserted commits of a claimed slot (lines 106 and 142) succeed in every
interleaving: the thread that holds the slot finds the tag it set. -/
theorem slot_commit_never_fails {T : Type} (q0 : lock_free_queue T) (n : Nat) (x : T)
    (sched : List (Nat × Action T)) (s : System T)
    (hrun : System.exec sched (System.start q0 n x) = some s) (hstop : s.stopped = none)
    (a : Nat) (l : Local T) (hl : s.threads[a]? = some l)
    (hpc : l.pc = .enq_commit ∨ l.pc = .deq_commit) :
    ∃ s1, s.step a .step = some s1 ∧ s1.stopped = none := by
  obtain ⟨inv1, _⟩ := owned_exec sched (owned_start q0 n x) hrun
  obtain ⟨pc, t, hd, el⟩ := l
  simp only at hpc
  rcases hpc with rfl | rfl
  · obtain ⟨q1, h1, _⟩ := status_cas_of_slot_status (inv1 a _ t writing hl rfl) valid
    have ht : thread_step s.queue ⟨.enq_commit, t, hd, el⟩ .step =
        some (q1, ⟨.enq_advance, t, hd, el⟩, .silent) := by
      simp only [thread_step]
      rw [h1]
    exact ⟨_, step_of_thread_step hstop hl ht, hstop⟩
  · obtain ⟨q1, h1, _⟩ := status_cas_of_slot_status (inv1 a _ hd reading hl rfl) empty
    have ht : thread_step s.queue ⟨.deq_commit, t, hd, el⟩ .step =
        some (q1, ⟨.deq_advance, t, hd, el⟩, .silent) := by
      simp only [thread_step]
      rw [h1]
    exact ⟨_, step_of_thread_step hstop hl ht, hstop⟩

/-- C15 (an assertion of the code fails): a schedule on a queue of requested size 2 that
ends in the failure of `assert(_tail.compare_exchange_strong(tail, get_index(tail + 1)))`
of line 107.  Before the last step no assertion has failed, thread 3 is about to advance
`_tail` with its local `tail = 0`, and the shared `_tail` is 1; the last step stops the
process with a failed assertion. -/
theorem C15_tail_advance_assertion_fails :
    ((System.exec assert_failure_schedule.dropLast
        (System.start (lock_free_queue.construct (fun _ => 0) 2) 4 0)).map
        (fun s => (s.stopped, (s.threads.map (fun l => (l.pc, l.tail)))[3]?, s.queue._tail)) =
      some (none, some (.enq_advance, 0), 1)) ∧
    ((System.exec assert_failure_schedule
        (System.start (lock_free_queue.construct (fun _ => 0) 2) 4 0)).map System.observe =
      some ⟨[10, 11, 50], [10, 11, 50], true, some .assert_failed,
        [.idle, .idle, .idle, .enq_advance]⟩) := by
  refine ⟨by decide, by decide⟩

/-- C16, as stated, fails: there is an interleaving in which a producer wins the
compare-exchange `empty -> writing` on slot 0 and then finds the shared `_tail` equal to
1, and one in which a consumer wins `valid -> reading` on slot 0 and then finds the shared
`_head` equal to 1; both threads are at the abort branch. -/
theorem C16_abort_branches_are_taken :
    ((System.exec producer_abort_schedule
        (System.start (lock_free_queue.construct (fun _ => 0) 2) 3 0)).map
        (fun s => (s.stopped, (s.threads.map (fun l => (l.pc, l.tail)))[0]?, s.queue._tail)) =
      some (none, some (.enq_abort, 0), 1)) ∧
    ((System.exec consumer_abort_schedule
        (System.start (lock_free_queue.construct (fun _ => 0) 2) 4 0)).map
        (fun s => (s.stopped, (s.threads.map (fun l => (l.pc, l.head)))[3]?, s.queue._head)) =
      some (none, some (.deq_abort, 0), 1)) := by
  refine ⟨by decide, by decide⟩

/-- C16, amended: the re-check of the cursor after winning a slot is needed.  In every
interleaving, a thread that has taken the abort branch of `enqueue` (it won
`empty -> writing` on slot `tail` and found `_tail` changed) reverts the slot to `empty`
with a compare-exchange that succeeds, and retries from the load of `_tail`; a thread
that has taken the abort branch of `dequeue` reverts the slot to `valid` and retries from
the load of `_head`.  Both abort branches are reached by some interleaving. -/
theorem C16_abort_reverts_and_retries {T : Type} (q0 : lock_free_queue T) (n : Nat) (x : T)
    (sched : List (Nat × Action T)) (s : System T)
    (hrun : System.exec sched (System.start q0 n x) = some s) (hstop : s.stopped = none)
    (a : Nat) (l : Local T) (hl : s.threads[a]? = some l) :
    (l.pc = .enq_abort → ∃ s1, s.step a .step = some s1 ∧ s1.stopped = none ∧
        s1.queue.slot_status l.tail = some empty ∧
        s1.threads[a]? = some { l with pc := .enq_load_tail }) ∧
      (l.pc = .deq_abort → ∃ s1, s.step a .step = some s1 ∧ s1.stopped = none ∧
        s1.queue.slot_status l.head = some valid ∧
        s1.threads[a]? = some { l with pc := .deq_load_head }) ∧
      ((System.exec producer_abort_schedule
        (System.start (lock_free_queue.construct (fun _ => 0) 2) 3 0)).map
        (fun s => s.threads.map (fun l => l.pc)) = some [.enq_abort, .idle, .idle]) ∧
      ((System.exec consumer_abort_schedule
        (System.start (lock_free_queue.construct (fun _ => 0) 2) 4 0)).map
        (fun s => s.threads.map (fun l => l.pc)) =
          some [.idle, .idle, .idle, .deq_abort]) := by
  obtain ⟨inv1, _⟩ := owned_exec sched (owned_start q0 n x) hrun
  have hal : a < s.threads.length := by
    obtain ⟨h1, _⟩ := List.getElem?_eq_some.1 hl
    exact h1
  refine ⟨?_, ?_, by decide, by decide⟩
  · intro hpc
    obtain ⟨pc, t, hd, el⟩ := l
    simp only at hpc
    subst hpc
    obtain ⟨q1, h1, h2⟩ := status_cas_of_slot_status (inv1 a _ t writing hl rfl) empty
    have ht : thread_step s.queue ⟨.enq_abort, t, hd, el⟩ .step =
        some (q1, ⟨.enq_load_tail, t, hd, el⟩, .silent) := by
      simp only [thread_step]
      rw [h1]
    exact ⟨_, step_of_thread_step hstop hl ht, hstop, h2, List.getElem?_set_self hal⟩
  · intro hpc
    obtain ⟨pc, t, hd, el⟩ := l
    simp only at hpc
    subst hpc
    obtain ⟨q1, h1, h2⟩ := status_cas_of_slot_status (inv1 a _ hd reading hl rfl) valid
    have ht : thread_step s.queue ⟨.deq_abort, t, hd, el⟩ .step =
        some (q1, ⟨.deq_load_head, t, hd, el⟩, .silent) := by
      simp only [thread_step]
      rw [h1]
    exact ⟨_, step_of_thread_step hstop hl ht, hstop, h2, List.getElem?_set_self hal⟩

theorem C16_abort_reverts_and_retries_witness :
    ∃ s : System Int,
      System.exec producer_abort_schedule
        (System.start (lock_free_queue.construct (fun _ => 0) 2) 3 0) = some s ∧
      s.stopped = none ∧
      s.threads[0]? = some { pc := .enq_abort, tail := 0, head := 0, element := 20 } ∧
      ((PC.enq_abort = PC.enq_abort → ∃ s1, s.step 0 .step = some s1 ∧ s1.stopped = none ∧
          s1.queue.slot_status 0 = some empty ∧
          s1.threads[0]? = some { pc := .enq_load_tail, tail := 0, head := 0, element := 20 }) ∧
        (PC.enq_abort = PC.deq_abort → ∃ s1, s.step 0 .step = some s1 ∧ s1.stopped = none ∧
          s1.queue.slot_status 0 = some valid ∧
          s1.threads[0]? = some { pc := .deq_load_head, tail := 0, head := 0, element := 20 }) ∧
        ((System.exec producer_abort_schedule
          (System.start (lock_free_queue.construct (fun _ => 0) 2) 3 0)).map
          (fun s => s.threads.map (fun l => l.pc)) = some [.enq_abort, .idle, .idle]) ∧
        ((System.exec consumer_abort_schedule
          (System.start (lock_free_queue.construct (fun _ => 0) 2) 4 0)).map
          (fun s => s.threads.map (fun l => l.pc)) =
            some [.idle, .idle, .idle, .deq_abort])) := by
  have hd : (System.exec producer_abort_schedule
      (System.start (lock_free_queue.construct (fun _ => 0) 2) 3 0)).map
        (fun s => (s.stopped, s.threads[0]?)) =
      some (none, some { pc := .enq_abort, tail := 0, head := 0, element := 20 }) := by
    decide
  obtain ⟨s, h⟩ : ∃ s, System.exec producer_abort_schedule
      (System.start (lock_free_queue.construct (fun _ => 0) 2) 3 0) = some s := by
    cases h : System.exec producer_abort_schedule
        (System.start (lock_free_queue.construct (fun _ => 0) 2) 3 0) with
    | none => rw [h] at hd; cases hd
    | some s => exact ⟨s, rfl⟩
  rw [h] at hd
  simp only [Option.map_some', Option.some.injEq, Prod.mk.injEq] at hd
  exact ⟨s, h, hd.1, hd.2,
    C16_abort_reverts_and_retries _ _ _ _ s h hd.1 0 _ hd.2⟩

/-! ## The build without assertion checking -/

theorem main_queue_ndebug_spins (fuel : Nat) :
    main_queue_ndebug.enqueue_ndebug fuel 8 = .error .out_of_fuel := by
  induction fuel with
  | zero => rfl
  | succ k ih =>
    have h1 : main_queue_ndebug.is_full = false := by decide
    have h2 : main_queue_ndebug.status_cas main_queue_ndebug._tail empty writing =
        .ok (false, main_queue_ndebug) := by rfl
    unfold lock_free_queue.enqueue_ndebug
    simp only [h1, Bool.false_eq_true, if_false, h2]
    exact ih

/-- C17 (the two builds differ): on the queue of the source's `main` (requested size 5),
`enqueue(7)` returns true in both builds.  With assertion checking it leaves slot 0
`valid` and `_tail = 1`, and the following `dequeue` returns true with 7.  With `NDEBUG`
it leaves slot 0 `writing` and `_tail = 0`, the following `dequeue` returns false, and a
second `enqueue` never returns. -/
theorem C17_ndebug_build_differs :
    (∃ q1, (lock_free_queue.construct (fun _ => (0 : Int)) 5).enqueue 1 7 = .ok (true, q1) ∧
        q1._tail = 1 ∧ q1.slot_status 0 = some valid ∧
        ∃ q2, q1.dequeue 1 0 = .ok (true, 7, q2)) ∧
      ((lock_free_queue.construct (fun _ => (0 : Int)) 5).enqueue_ndebug 1 7 =
          .ok (true, main_queue_ndebug) ∧
        main_queue_ndebug._tail = 0 ∧ main_queue_ndebug.slot_status 0 = some writing ∧
        main_queue_ndebug.dequeue_ndebug 1 0 = .ok (false, 0, main_queue_ndebug) ∧
        ∀ fuel, main_queue_ndebug.enqueue_ndebug fuel 8 = .error .out_of_fuel) := by
  refine ⟨⟨enqueued_state (lock_free_queue.construct (fun _ => (0 : Int)) 5) 7, by rfl,
    by decide, by decide,
    dequeued_state (enqueued_state (lock_free_queue.construct (fun _ => (0 : Int)) 5) 7)
      { status := valid, value := 7 }, by rfl⟩,
    by rfl, by decide, by decide, by rfl, main_queue_ndebug_spins⟩

end LockFree
